import Mathlib

/-!
Verification of the fsk storage layer

A shallow embedding of src/storage.rs (and the Import command dispatch in
src/main.rs) of the fsk note manager, together with proofs about the claims
of the specification.

The filesystem is modelled as a finite tree (Entry): a file carries a
readability flag (whether fs::read_to_string / fs::copy succeed on it) and
its text content; a directory carries its list of entries in OS-enumeration
order.  Paths are lists of name components relative to the base directory.
Note titles are modelled as relative paths (the spec's data model: a title
is a slash-separated relative path); absolute-path injection through titles
is outside the model, as the spec flags path hardening as unspecified.
String case-folding is modelled at the ASCII level (Char.toLower), matching
Rust to_lowercase on the ASCII titles and keywords the claims concern.
-/

namespace Fsk

/-! ## String helpers (modelling Rust str/Path primitives on List Char) -/

/-- Lexicographic (by code point) comparison of character lists; this is the
order Rust String Ord induces (UTF-8 byte order equals code-point order). -/
def lexLe : List Char → List Char → Bool
  | [], _ => true
  | _ :: _, [] => false
  | a :: as, b :: bs =>
    if a.toNat < b.toNat then true
    else if b.toNat < a.toNat then false
    else lexLe as bs

/-- Rust String Ord, ascending, as used by Vec::sort in list. -/
def strLe (a b : String) : Bool := lexLe a.data b.data

/-- Rust str::to_lowercase, at the ASCII level. -/
def strLower (s : String) : String := String.mk (s.data.map Char.toLower)

/-- Whether the character list hay starts with needle. -/
def listStarts : List Char → List Char → Bool
  | [], _ => true
  | _ :: _, [] => false
  | a :: as, b :: bs => a == b && listStarts as bs

/-- Whether needle occurs contiguously inside hay. -/
def listHas : List Char → List Char → Bool
  | needle, [] => needle.isEmpty
  | needle, hay@(_ :: rest) => listStarts needle hay || listHas needle rest

/-- Rust str::contains (substring containment). -/
def strContains (hay needle : String) : Bool := listHas needle.data hay.data

/-- Split a character list on a separator character (Rust str::split for a
single-char pattern; also how Path::join decomposes a slash-separated
relative path into components). -/
def splitOnChar (sep : Char) : List Char → List (List Char)
  | [] => [[]]
  | c :: rest =>
    let r := splitOnChar sep rest
    if c = sep then [] :: r
    else
      match r with
      | [] => [[c]]
      | g :: gs => (c :: g) :: gs

/-- The path components a title contributes when joined onto the base
directory: split on '/', empty components dropped (as POSIX path
normalization of repeated separators does). -/
def titleComponents (t : String) : List String :=
  ((splitOnChar '/' t.data).filter (fun g => !g.isEmpty)).map String.mk

/-- Rust Path::extension on a file name: the portion after the final dot;
none when there is no dot, or when the name begins with a dot and contains
no further dot. -/
def rustExtension (n : String) : Option String :=
  let parts := splitOnChar '.' n.data
  match parts with
  | [] => none
  | [_] => none
  | p0 :: rest =>
    if p0 = [] ∧ rest.length = 1 then none
    else (p0 :: rest).getLast?.map String.mk

/-- Rust Path::with_extension("") on a file name: drop the extension
(and its dot) when there is one. -/
def stripExt (n : String) : String :=
  match rustExtension n with
  | none => n
  | some e => String.mk (n.data.take (n.data.length - (e.data.length + 1)))

/-- Join relative path components with '/' (Path::to_string_lossy of a
relative path built from the components). -/
def joinPath : List String → String
  | [] => ""
  | [x] => x
  | x :: rest => x ++ "/" ++ joinPath rest

/-- The relative title of a file named n in the directory with relative
components rel: strip_prefix(base) followed by with_extension(""). -/
def mkTitle (rel : List String) (n : String) : String :=
  joinPath (rel ++ [stripExt n])

/-- Rust str::lines: lines are split at newlines, a carriage return that
is part of a CRLF ending is stripped, the final line ending is optional,
and a bare trailing carriage return not followed by a newline is kept. -/
def rustLines (s : String) : List String :=
  let parts := splitOnChar '\n' s.data
  let stripCR : List Char → List Char := fun l =>
    match l.getLast? with
    | some c => if c = '\r' then l.dropLast else l
    | none => l
  parts.dropLast.map (fun l => String.mk (stripCR l)) ++
    (match parts.getLast? with
     | some [] => []
     | some l => [String.mk l]
     | none => [])

/-- Rust str::trim (whitespace stripped from both ends). -/
def trimStr (s : String) : String :=
  String.mk (((s.data.dropWhile Char.isWhitespace).reverse.dropWhile Char.isWhitespace).reverse)

/-! ## The filesystem model -/

/-- A node of the file tree under the base directory.  A file records
whether reading it succeeds (fs::read_to_string / fs::copy) and its
content; a directory records its entries in OS-enumeration order. -/
inductive Entry where
  | file (readable : Bool) (content : String)
  | dir (entries : List (String × Entry))
deriving Repr

abbrev DirEntries := List (String × Entry)

/-- Directory lookup by name (the filesystem resolving one component). -/
def lookupE (es : DirEntries) (n : String) : Option Entry :=
  match es.find? (fun p => p.1 == n) with
  | some p => some p.2
  | none => none

/-- Whether a directory has an entry with the given name. -/
def hasName (es : DirEntries) (n : String) : Bool :=
  es.any (fun p => p.1 == n)

/-- Replace the first entry with the given name, or append a new one. -/
def updateName : DirEntries → String → Entry → DirEntries
  | [], n, v => [(n, v)]
  | (m, e) :: rest, n, v =>
    if m == n then (n, v) :: rest else (m, e) :: updateName rest n v

/-- Remove the first entry with the given name. -/
def eraseName : DirEntries → String → DirEntries
  | [], _ => []
  | (m, e) :: rest, n =>
    if m == n then rest else (m, e) :: eraseName rest n

/-- Resolve a relative path in the tree (None: the path does not exist). -/
def getPath : Entry → List String → Option Entry
  | e, [] => some e
  | .file _ _, _ :: _ => none
  | .dir es, n :: rest =>
    match lookupE es n with
    | some e => getPath e rest
    | none => none

/-- Delete the entry at a (nonempty) relative path; identity when the path
does not lead anywhere. -/
def removeAt : Entry → List String → Entry
  | e, [] => e
  | .file r c, _ :: _ => .file r c
  | .dir es, [n] => .dir (eraseName es n)
  | .dir es, n :: rest@(_ :: _) =>
    match lookupE es n with
    | some child => .dir (updateName es n (removeAt child rest))
    | none => .dir es

/-- Write the entry at a (nonempty) relative path whose parent exists;
identity when an intermediate component is missing or a file. -/
def insertAt : Entry → List String → Entry → Entry
  | e, [], _ => e
  | .file r c, _ :: _, _ => .file r c
  | .dir es, [n], v => .dir (updateName es n v)
  | .dir es, n :: rest@(_ :: _), v =>
    match lookupE es n with
    | some child => .dir (updateName es n (insertAt child rest v))
    | none => .dir es

/-- Well-formedness of a directory listing: entry names are distinct at
every level (true of any real directory tree). -/
def wfD : DirEntries → Bool
  | [] => true
  | (n, .file _ _) :: rest => !hasName rest n && wfD rest
  | (n, .dir es) :: rest => !hasName rest n && wfD es && wfD rest

/-- Well-formedness of a tree. -/
def wfE : Entry → Bool
  | .file _ _ => true
  | .dir es => wfD es

/-- Option Entry tests mirroring Path::is_file / Path::is_dir. -/
def isFileO : Option Entry → Bool
  | some (.file _ _) => true
  | _ => false

def isDirO : Option Entry → Bool
  | some (.dir _) => true
  | _ => false

/-! ## The storage operations (translated from src/storage.rs) -/

/-- Error kinds of std::io::ErrorKind the storage layer can surface. -/
inductive ErrKind where
  | notFound
  | permissionDenied
  | alreadyExists
  | notADirectory
  | isADirectory
  | other
deriving DecidableEq, Repr

/-- A std::io::Error: a kind plus a message (empty for raw OS errors). -/
structure IoError where
  kind : ErrKind
  msg : String
deriving DecidableEq, Repr

/-- resolve_path, relative to the base directory: the empty title denotes
the base itself, otherwise the components of "<title>.md". -/
def resolveComps (t : String) : List String :=
  if t = "" then [] else titleComponents (t ++ ".md")

/-- A search result: SearchResult of storage.rs. -/
structure SearchResult where
  title : String
  is_title_match : Bool
  preview : Option String
deriving DecidableEq, Repr

/-- The per-file body of walk_and_search: extension filter, title match
(fast path, no read), then lazy content match; unreadable files are
silently skipped. -/
def searchFile (n : String) (r : Bool) (c : String) (rel : List String) (kw : String) :
    List SearchResult :=
  if rustExtension n == some "md" then
    let title := mkTitle rel n
    if strContains (strLower title) kw then
      [⟨title, true, none⟩]
    else if r then
      match (rustLines c).find? (fun l => strContains (strLower l) kw) with
      | some line => [⟨title, false, some (trimStr line)⟩]
      | none => []
    else []
  else []

/-- walk_and_search of storage.rs: recursive walk over a directory listing,
recursing into subdirectories, processing files in enumeration order. -/
def walk_and_search (kw : String) (rel : List String) : DirEntries → List SearchResult
  | [] => []
  | (n, .dir es) :: rest => walk_and_search kw (rel ++ [n]) es ++ walk_and_search kw rel rest
  | (n, .file r c) :: rest => searchFile n r c rel kw ++ walk_and_search kw rel rest

/-- search of storage.rs: lowercase the keyword once and walk from the base
(read_dir on a non-directory base fails, yielding no results). -/
def search (base : Entry) (keyword : String) : List SearchResult :=
  match base with
  | .dir es => walk_and_search (strLower keyword) [] es
  | .file _ _ => []

/-- visit_dirs of storage.rs: collect relative titles of .md files by a
recursive walk. -/
def visit_dirs (rel : List String) : DirEntries → List String
  | [] => []
  | (n, .dir es) :: rest => visit_dirs (rel ++ [n]) es ++ visit_dirs rel rest
  | (n, .file _ _) :: rest =>
    (if rustExtension n == some "md" then [mkTitle rel n] else []) ++ visit_dirs rel rest

/-- The components of the optional subfolder argument of list: the walk
starts at base/subfolder when one is given, at base otherwise. -/
def listComps (sub : Option String) : List String :=
  match sub with
  | some p => titleComponents p
  | none => []

/-- list of storage.rs: walk from base (or base/subfolder when given and it
is a directory; otherwise the result is empty), then sort ascending. -/
def list (base : Entry) (sub : Option String) : List String :=
  match getPath base (listComps sub) with
  | some (.dir es) => (visit_dirs (listComps sub) es).mergeSort strLe
  | _ => []

/-- The empty-parent prune loop in remove of storage.rs, recursing on the
reversed directory path: stop at the base; read the directory (propagating
a failure); delete it when empty and continue with its parent; otherwise
stop. -/
def pruneRev : Entry → List String → Entry × Option IoError
  | b, [] => (b, none)
  | b, rl@(_ :: rest) =>
    match getPath b rl.reverse with
    | some (.dir []) => pruneRev (removeAt b rl.reverse) rest
    | some (.dir _) => (b, none)
    | _ => (b, some ⟨.other, ""⟩)

/-- remove of storage.rs.  Returns the new state of the base directory
(none: the base itself was deleted) together with the outcome. -/
def remove (base : Entry) (title : String) : Option Entry × Option IoError :=
  let extComps := titleComponents (title ++ ".md")
  let dirComps := titleComponents title
  if isFileO (getPath base extComps) then
    let b1 := removeAt base extComps
    let res := pruneRev b1 extComps.dropLast.reverse
    (some res.1, res.2)
  else if isDirO (getPath base dirComps) then
    if dirComps.isEmpty then (none, none)
    else (some (removeAt base dirComps), none)
  else
    (some base, some ⟨.notFound, "Note or folder '" ++ title ++ "' not found"⟩)

/-- fs::create_dir_all: create every missing component of the path as a
directory; fail when a component exists as a file, leaving the directories
already created in place. -/
def create_dir_all : Entry → List String → Entry × Option IoError
  | .dir es, [] => (.dir es, none)
  | .file r c, [] => (.file r c, some ⟨.alreadyExists, ""⟩)
  | .file r c, _ :: _ => (.file r c, some ⟨.notADirectory, ""⟩)
  | .dir es, n :: rest =>
    match lookupE es n with
    | some child =>
      let res := create_dir_all child rest
      (.dir (updateName es n res.1), res.2)
    | none =>
      let res := create_dir_all (.dir []) rest
      (.dir (updateName es n res.1), res.2)

/-- Whether the first list of components is a prefix of the second. -/
def isPrefixL : List String → List String → Bool
  | [], _ => true
  | _ :: _, [] => false
  | a :: as, b :: bs => a == b && isPrefixL as bs

/-- fs::rename at the filesystem level (POSIX rename(2) on the cases the
model represents): renaming a path to itself succeeds as a no-op; moving a
tree strictly into itself fails; the source must exist and the destination
parent must be a directory; an existing destination file is overwritten by
a file, an existing destination directory must be empty to be replaced by a
directory. -/
def fsRename (b : Entry) (pFrom pTo : List String) : Entry × Option IoError :=
  if pFrom = pTo then (b, none)
  else if pFrom ≠ [] ∧ isPrefixL pFrom pTo then (b, some ⟨.other, ""⟩)
  else
    match getPath b pFrom with
    | none => (b, some ⟨.notFound, ""⟩)
    | some src =>
      match getPath b pTo.dropLast with
      | some (.dir _) =>
        if pTo = [] then (b, some ⟨.other, ""⟩)
        else
          match getPath b pTo with
          | none => (insertAt (removeAt b pFrom) pTo src, none)
          | some (.file _ _) =>
            match src with
            | .file _ _ => (insertAt (removeAt b pFrom) pTo src, none)
            | .dir _ => (b, some ⟨.notADirectory, ""⟩)
          | some (.dir des) =>
            match src with
            | .file _ _ => (b, some ⟨.isADirectory, ""⟩)
            | .dir _ =>
              if des.isEmpty then (insertAt (removeAt b pFrom) pTo src, none)
              else (b, some ⟨.other, ""⟩)
      | _ => (b, some ⟨.notFound, ""⟩)

/-- rename of storage.rs: resolve both titles, create the destination's
parent directories when the parent does not exist (propagating a creation
failure with the directories created so far kept), then fs::rename. -/
def rename (base : Entry) (src dst : String) : Entry × Option IoError :=
  let pFrom := resolveComps src
  let pTo := resolveComps dst
  let parent := pTo.dropLast
  let step1 :=
    if (getPath base parent).isSome then (base, (none : Option IoError))
    else create_dir_all base parent
  match step1.2 with
  | some e => (step1.1, some e)
  | none => fsRename step1.1 pFrom pTo

/-- copy_dir_recursive of storage.rs, the per-entry loop: copy each entry of
the source listing into the destination tree in order, stopping at the
first failure.  Copying under a destination that is a file fails (the
nested create_dir_all or fs::copy fails with NotADirectory); fs::copy of an
unreadable source fails; fs::copy onto an existing directory fails. -/
def copyEntries : DirEntries → Entry → Except IoError Entry
  | [], d => .ok d
  | (n, .dir es) :: rest, d =>
    match d with
    | .file _ _ => .error ⟨.notADirectory, ""⟩
    | .dir des =>
      let sub :=
        match lookupE des n with
        | some e => copyEntries es e
        | none => copyEntries es (.dir [])
      match sub with
      | .ok sub' => copyEntries rest (.dir (updateName des n sub'))
      | .error e => .error e
  | (n, .file r c) :: rest, d =>
    match d with
    | .file _ _ => .error ⟨.notADirectory, ""⟩
    | .dir des =>
      if r then
        match lookupE des n with
        | some (.dir _) => .error ⟨.isADirectory, ""⟩
        | _ => copyEntries rest (.dir (updateName des n (.file true c)))
      else .error ⟨.permissionDenied, ""⟩

/-- copy_dir_recursive of storage.rs: create the destination when missing
(an existing destination entry is taken as is), then copy the source
listing; fs::read_dir on a source that is a file fails. -/
def copy_dir_recursive (src : Entry) (dest : Option Entry) : Except IoError Entry :=
  match src with
  | .file _ _ => .error ⟨.notADirectory, ""⟩
  | .dir es =>
    match dest with
    | none => copyEntries es (.dir [])
    | some d => copyEntries es d

/-- export_folder of storage.rs: resolve the source (the empty title is the
whole base), require it to exist, and copy it recursively onto the
destination tree, returning the new destination tree.  base is the state
of the base directory (none: it does not exist); dest is the state at the
destination path. -/
def export_folder (base : Option Entry) (source_title : String) (dest : Option Entry) :
    Except IoError Entry :=
  let src :=
    if source_title = "" then base
    else base.bind (fun b => getPath b (titleComponents source_title))
  match src with
  | none => .error ⟨.notFound, "Source '" ++ source_title ++ "' not found in database"⟩
  | some s => copy_dir_recursive s dest

/-- Commands::Import of src/main.rs: import(source) is implemented as
export_folder("", source) — the base directory is copied onto the given
source path; the returned tree is the new state AT THE SOURCE PATH and the
base directory itself is never written. -/
def importCmd (base : Option Entry) (sourceTree : Option Entry) : Except IoError Entry :=
  export_folder base "" sourceTree

/-! ## Relations and auxiliary constructions used by the theorems

Two trees are two enumeration orders of the same filesystem when they
differ only by permutations of the entry lists of their directories. -/

/-- Directory listings related by permuting each directory's entries, at
every level of the tree. -/
inductive DirPerm : DirEntries → DirEntries → Prop where
  | nil : DirPerm [] []
  | consFile : ∀ (n : String) (r : Bool) (c : String) {es es'}, DirPerm es es' →
      DirPerm ((n, .file r c) :: es) ((n, .file r c) :: es')
  | consDir : ∀ (n : String) {ds ds' es es'}, DirPerm ds ds' → DirPerm es es' →
      DirPerm ((n, .dir ds) :: es) ((n, .dir ds') :: es')
  | swap : ∀ (a b : String × Entry) {es}, DirPerm (a :: b :: es) (b :: a :: es)
  | trans : ∀ {e₁ e₂ e₃}, DirPerm e₁ e₂ → DirPerm e₂ e₃ → DirPerm e₁ e₃

/-- Trees identical up to enumeration order: equal files, or directories
with DirPerm-related listings. -/
def entRel : Entry → Entry → Prop
  | .file r c, .file r' c' => r = r' ∧ c = c'
  | .dir ds, .dir ds' => DirPerm ds ds'
  | .file _ _, .dir _ => False
  | .dir _, .file _ _ => False

def entRelO : Option Entry → Option Entry → Prop
  | none, none => True
  | some a, some b => entRel a b
  | none, some _ => False
  | some _, none => False

/-- A chain of singleton directories ending in the given entry: the shape
of a subfolder that contains exactly one (nested) note. -/
def mkChain : List String → Entry → Entry
  | [], e => e
  | n :: ns, e => .dir [(n, mkChain ns e)]

/-- A file named n, with the given readability and content, sits in the
tree below the listing es, inside the subdirectory at the relative path
rel (the file's own relative directory, as the search walk reaches it). -/
inductive FileInTree : DirEntries → List String → String → Bool → String → Prop where
  | here : ∀ {es n r c}, (n, Entry.file r c) ∈ es → FileInTree es [] n r c
  | deeper : ∀ {es ds rel n r c} (m : String), (m, Entry.dir ds) ∈ es →
      FileInTree ds rel n r c → FileInTree es (m :: rel) n r c

/-! ## Order lemmas for the sort used by list -/

theorem lexLe_trans : ∀ {a b c : List Char},
    lexLe a b = true → lexLe b c = true → lexLe a c = true
  | [], _, _, _, _ => rfl
  | _ :: _, [], _, hab, _ => by simp [lexLe] at hab
  | _ :: _, _ :: _, [], _, hbc => by simp [lexLe] at hbc
  | a :: as, b :: bs, c :: cs, hab, hbc => by
    simp only [lexLe] at hab hbc ⊢
    split at hab
    · split at hbc
      · simp [show a.toNat < c.toNat by omega]
      · split at hbc
        · exact absurd hbc (by simp)
        · simp [show a.toNat < c.toNat by omega]
    · split at hab
      · exact absurd hab (by simp)
      · split at hbc
        · simp [show a.toNat < c.toNat by omega]
        · split at hbc
          · exact absurd hbc (by simp)
          · rw [if_neg (by omega : ¬ a.toNat < c.toNat),
              if_neg (by omega : ¬ c.toNat < a.toNat)]
            exact lexLe_trans hab hbc

theorem lexLe_total : ∀ (a b : List Char), (lexLe a b || lexLe b a) = true
  | [], _ => by simp [lexLe]
  | _ :: _, [] => by simp [lexLe]
  | a :: as, b :: bs => by
    simp only [lexLe]
    rcases Nat.lt_trichotomy a.toNat b.toNat with h | h | h
    · simp [h]
    · simp only [h, Nat.lt_irrefl, if_false, if_neg (by omega : ¬ b.toNat < a.toNat)]
      exact lexLe_total as bs
    · simp [h, if_neg (by omega : ¬ a.toNat < b.toNat)]

theorem lexLe_antisymm : ∀ {a b : List Char},
    lexLe a b = true → lexLe b a = true → a = b
  | [], [], _, _ => rfl
  | [], _ :: _, _, hba => by simp [lexLe] at hba
  | _ :: _, [], hab, _ => by simp [lexLe] at hab
  | a :: as, b :: bs, hab, hba => by
    simp only [lexLe] at hab hba
    split at hab
    · rw [if_neg (by omega), if_pos (by omega)] at hba
      exact absurd hba (by simp)
    · split at hab
      · exact absurd hab (by simp)
      · have h1 : ¬ b.toNat < a.toNat := by omega
        have h2 : ¬ a.toNat < b.toNat := by omega
        rw [if_neg h1, if_neg h2] at hba
        have hc : a = b := Char.ext (UInt32.ext (show a.toNat = b.toNat by omega))
        rw [hc, lexLe_antisymm hab hba]

theorem strLe_trans (a b c : String) : strLe a b = true → strLe b c = true → strLe a c = true :=
  lexLe_trans

theorem strLe_total (a b : String) : (strLe a b || strLe b a) = true :=
  lexLe_total a.data b.data

instance : IsAntisymm String (fun a b => strLe a b = true) := by
  constructor
  intro a b hab hba
  cases a; cases b
  exact congrArg String.mk (lexLe_antisymm hab hba)

/-- The result of the sort in list is sorted. -/
theorem sorted_mergeSort_strLe (l : List String) :
    List.Pairwise (fun a b => strLe a b = true) (l.mergeSort strLe) :=
  List.sorted_mergeSort strLe_trans strLe_total l

/-- Sorting is invariant under permutation of the input. -/
theorem mergeSort_strLe_congr_perm {l l' : List String} (h : l.Perm l') :
    l.mergeSort strLe = l'.mergeSort strLe := by
  apply List.eq_of_perm_of_sorted (r := fun a b => strLe a b = true)
  · exact (List.mergeSort_perm l strLe).trans (h.trans (List.mergeSort_perm l' strLe).symm)
  · exact sorted_mergeSort_strLe l
  · exact sorted_mergeSort_strLe l'

/-- Evaluate a concrete sort: rearrange to a sorted list. -/
theorem mergeSort_strLe_eval {l l' : List String} (hp : l.Perm l')
    (hs : List.Pairwise (fun a b => strLe a b = true) l') :
    l.mergeSort strLe = l' := by
  rw [mergeSort_strLe_congr_perm hp, List.mergeSort_of_sorted hs]

/-! ## Small helper lemmas -/

theorem getPath_dir_single (es : DirEntries) (n : String) :
    getPath (.dir es) [n] = lookupE es n := by
  simp only [getPath]
  cases lookupE es n <;> simp [getPath]

/-! ## Claim C1: the export/import round trip

Commands::Import { source } in src/main.rs is implemented as
export_folder("", &source): the resolved copy source is the BASE directory
and the copy destination is the path given to import.  The import
therefore copies the (fresh, empty) base onto the import source and never
writes the base directory at all: the round trip leaves the fresh base
empty rather than reproducing the original tree. -/

/-- C1 (code bug witnessed): with the base holding the single note a.md
("hello"), exporting the whole base to an empty destination reproduces the
tree at the destination; running the Import command with that destination
as its source against a fresh empty base succeeds but merely copies the
empty base onto the destination, and the fresh base still lacks a.md. -/
theorem C1_import_copies_base_to_source :
    export_folder (some (.dir [("a.md", .file true "hello")])) "" none =
      .ok (.dir [("a.md", .file true "hello")]) ∧
    importCmd (some (.dir [])) (some (.dir [("a.md", .file true "hello")])) =
      .ok (.dir [("a.md", .file true "hello")]) ∧
    getPath (.dir []) ["a.md"] = none := by
  refine ⟨?_, ?_, ?_⟩
  · simp [export_folder, copy_dir_recursive, copyEntries, lookupE, updateName]
  · simp [importCmd, export_folder, copy_dir_recursive, copyEntries]
  · simp [getPath, lookupE]

/-! ## Claim C6: remove on a missing title -/

/-- C6: when neither base/title.md exists as a file nor base/title as a
directory, remove fails with a NotFound error whose message names the
missing title, and the base directory state is unchanged. -/
theorem C6_remove_missing_notFound (base : Entry) (title : String)
    (hf : isFileO (getPath base (titleComponents (title ++ ".md"))) = false)
    (hd : isDirO (getPath base (titleComponents title)) = false) :
    remove base title =
      (some base, some ⟨.notFound, "Note or folder '" ++ title ++ "' not found"⟩) ∧
    ∃ s t, "Note or folder '" ++ title ++ "' not found" = s ++ (title ++ t) := by
  constructor
  · simp [remove, hf, hd]
  · exact ⟨"Note or folder '", "' not found", rfl⟩

/-- Witness for C6 at the concrete empty base and title "nope". -/
theorem C6_remove_missing_notFound_witness :
    remove (.dir []) "nope" =
      (some (.dir []), some ⟨.notFound, "Note or folder 'nope' not found"⟩) ∧
    ∃ s t, "Note or folder 'nope' not found" = s ++ ("nope" ++ t) :=
  C6_remove_missing_notFound (.dir []) "nope" (by decide) (by decide)

/-! ## Claim C8: remove with the empty title -/

/-- C8: with an empty title and no file named .md at the top of the base,
the directory branch of remove resolves base/<title> to the base itself and
remove_dir_all deletes the entire base directory (state none); the
never-delete-base guard protects only the prune walk of the file branch. -/
theorem C8_remove_empty_title_deletes_base (es : DirEntries)
    (h : isFileO (lookupE es ".md") = false) :
    remove (.dir es) "" = (none, none) := by
  have hext : titleComponents ("" ++ ".md") = [".md"] := by decide
  have hdir : titleComponents "" = [] := by decide
  rw [remove, hext, hdir, getPath_dir_single, h]
  simp [getPath, isDirO]

/-- Witness for C8: a base holding the note a.md is deleted wholesale by
remove "". -/
theorem C8_remove_empty_title_deletes_base_witness :
    remove (.dir [("a.md", .file true "x")]) "" = (none, none) :=
  C8_remove_empty_title_deletes_base [("a.md", .file true "x")] (by decide)

/-! ## Claim C9: search touches only .md files -/

/-- C9: a file whose name does not carry the md extension produces no
search result and its content is never read: the walk's handling of it is
empty for every readability flag and every content. -/
theorem C9_search_skips_non_md (n : String) (rel : List String) (kw : String)
    (r r' : Bool) (c c' : String) (h : rustExtension n ≠ some "md") :
    searchFile n r c rel kw = [] ∧
    searchFile n r c rel kw = searchFile n r' c' rel kw ∧
    walk_and_search kw rel [(n, .file r c)] = [] := by
  have hb : (rustExtension n == some "md") = false := beq_eq_false_iff_ne.mpr h
  refine ⟨?_, ?_, ?_⟩ <;> simp [searchFile, walk_and_search, hb]

/-- Witness for C9 at a concrete .txt file whose name and content both
contain the keyword. -/
theorem C9_search_skips_non_md_witness :
    searchFile "kw.txt" true "kw" [] "kw" = [] ∧
    searchFile "kw.txt" true "kw" [] "kw" = searchFile "kw.txt" false "zz" [] "kw" ∧
    walk_and_search "kw" [] [("kw.txt", .file true "kw")] = [] :=
  C9_search_skips_non_md "kw.txt" [] "kw" true false "kw" "zz" (by decide)

/-! ## Claims C2 and C7: the search walk -/

/-- Whatever the per-file processing emits for a file entry of a directory
is part of the walk's output. -/
theorem mem_walk_of_mem_file : ∀ (es : DirEntries) (rel : List String) (kw n : String)
    (r : Bool) (c : String) (x : SearchResult),
    (n, Entry.file r c) ∈ es → x ∈ searchFile n r c rel kw →
    x ∈ walk_and_search kw rel es
  | [], _, _, _, _, _, _, hmem, _ => by simp at hmem
  | (m, .dir ds) :: rest, rel, kw, n, r, c, x, hmem, hx => by
    rcases List.mem_cons.mp hmem with h | h
    · simp at h
    · rw [walk_and_search]
      exact List.mem_append_right _ (mem_walk_of_mem_file rest rel kw n r c x h hx)
  | (m, .file r' c') :: rest, rel, kw, n, r, c, x, hmem, hx => by
    rcases List.mem_cons.mp hmem with h | h
    · rw [walk_and_search]
      refine List.mem_append_left _ ?_
      obtain ⟨h1, h2, h3⟩ : n = m ∧ r = r' ∧ c = c' := by
        simpa [Prod.ext_iff, Entry.file.injEq] using h
      rw [← h1, ← h2, ← h3]
      exact hx
    · rw [walk_and_search]
      exact List.mem_append_right _ (mem_walk_of_mem_file rest rel kw n r c x h hx)

/-- C2: an .md file whose lowercased relative title contains the lowercased
keyword yields a title-match result in the walk's output, the per-file
processing emits exactly that result, and it does so without reading the
file: the outcome is the same for every readability flag and content (in
particular for an unreadable file).  search runs the walk with the
lowercased keyword from the base directory. -/
theorem C2_title_match_never_reads (es : DirEntries) (rel : List String)
    (keyword n : String) (r : Bool) (c : String)
    (hmem : (n, Entry.file r c) ∈ es)
    (hext : rustExtension n = some "md")
    (hmatch : strContains (strLower (mkTitle rel n)) (strLower keyword) = true) :
    SearchResult.mk (mkTitle rel n) true none ∈ walk_and_search (strLower keyword) rel es ∧
    searchFile n r c rel (strLower keyword) = [⟨mkTitle rel n, true, none⟩] ∧
    (∀ r' c', searchFile n r c rel (strLower keyword) = searchFile n r' c' rel (strLower keyword)) ∧
    (rel = [] → SearchResult.mk (mkTitle [] n) true none ∈ search (.dir es) keyword) := by
  have hfile : ∀ (r0 : Bool) (c0 : String),
      searchFile n r0 c0 rel (strLower keyword) = [⟨mkTitle rel n, true, none⟩] := by
    intro r0 c0
    simp [searchFile, hext, hmatch]
  have hm : SearchResult.mk (mkTitle rel n) true none ∈ walk_and_search (strLower keyword) rel es := by
    apply mem_walk_of_mem_file es rel (strLower keyword) n r c _ hmem
    rw [hfile r c]
    exact List.mem_singleton.mpr rfl
  refine ⟨hm, hfile r c, fun r' c' => by rw [hfile r c, hfile r' c'], fun hrel => ?_⟩
  rw [search]
  subst hrel
  exact hm

/-- Witness for C2: an unreadable file kernel.md in a subdirectory linux,
searched for "KERN", still yields the title match linux/kernel. -/
theorem C2_title_match_never_reads_witness :
    SearchResult.mk (mkTitle ["linux"] "kernel.md") true none ∈
      walk_and_search (strLower "KERN") ["linux"] [("kernel.md", .file false "junk")] ∧
    searchFile "kernel.md" false "junk" ["linux"] (strLower "KERN") =
      [⟨mkTitle ["linux"] "kernel.md", true, none⟩] ∧
    (∀ r' c', searchFile "kernel.md" false "junk" ["linux"] (strLower "KERN") =
      searchFile "kernel.md" r' c' ["linux"] (strLower "KERN")) ∧
    (["linux"] = ([] : List String) →
      SearchResult.mk (mkTitle [] "kernel.md") true none ∈
        search (.dir [("kernel.md", .file false "junk")]) "KERN") :=
  C2_title_match_never_reads [("kernel.md", .file false "junk")] ["linux"]
    "KERN" "kernel.md" false "junk" (List.mem_singleton.mpr rfl) (by decide) (by decide)

/-- The per-file invariant of the search handler: the title-match flag
holds exactly when the preview is absent, and a content-match result comes
from a readable file, carries that file's relative title, and previews the
trimmed first line of that file's own content whose lowercased text
contains the keyword. -/
theorem searchFile_spec (n : String) (r : Bool) (c : String) (rel : List String)
    (kw : String) (res : SearchResult) (h : res ∈ searchFile n r c rel kw) :
    (res.is_title_match = true ↔ res.preview = none) ∧
    (res.is_title_match = false → r = true ∧ res.title = mkTitle rel n ∧
      ∃ line, (rustLines c).find? (fun l => strContains (strLower l) kw) = some line ∧
        res.preview = some (trimStr line)) := by
  simp only [searchFile] at h
  by_cases hext : (rustExtension n == some "md") = true
  · rw [if_pos hext] at h
    by_cases hmatch : strContains (strLower (mkTitle rel n)) kw = true
    · rw [if_pos hmatch] at h
      rw [List.mem_singleton.mp h]
      exact ⟨by simp, by simp⟩
    · rw [if_neg hmatch] at h
      by_cases hr : r = true
      · rw [if_pos hr] at h
        cases hfind : (rustLines c).find? (fun l => strContains (strLower l) kw) with
        | none =>
          rw [hfind] at h
          simp at h
        | some line =>
          rw [hfind] at h
          rw [List.mem_singleton.mp h]
          exact ⟨by simp, fun _ => ⟨hr, rfl, line, rfl, rfl⟩⟩
      · rw [if_neg hr] at h
        simp at h
  · rw [if_neg hext] at h
    simp at h

theorem fileInTree_cons {es : DirEntries} {rel : List String} {n : String} {r : Bool}
    {c : String} (p : String × Entry) (h : FileInTree es rel n r c) :
    FileInTree (p :: es) rel n r c := by
  cases h with
  | here hmem => exact .here (List.mem_cons_of_mem p hmem)
  | deeper m hmem hin => exact .deeper m (List.mem_cons_of_mem p hmem) hin

/-- Provenance: every result of the walk is produced by the per-file
handler on a file actually present in the tree, at its own relative
directory path. -/
theorem walk_search_provenance : ∀ (es : DirEntries) (rel0 : List String) (kw : String)
    (res : SearchResult), res ∈ walk_and_search kw rel0 es →
    ∃ suf n r c, FileInTree es suf n r c ∧ res ∈ searchFile n r c (rel0 ++ suf) kw
  | [], _, _, _, hres => by simp [walk_and_search] at hres
  | (m, .dir ds) :: rest, rel0, kw, res, hres => by
    rw [walk_and_search] at hres
    rcases List.mem_append.mp hres with h | h
    · obtain ⟨suf, n, r, c, hin, hres'⟩ := walk_search_provenance ds (rel0 ++ [m]) kw res h
      refine ⟨m :: suf, n, r, c, .deeper m (List.mem_cons_self _ _) hin, ?_⟩
      rw [show rel0 ++ m :: suf = (rel0 ++ [m]) ++ suf from by simp]
      exact hres'
    · obtain ⟨suf, n, r, c, hin, hres'⟩ := walk_search_provenance rest rel0 kw res h
      exact ⟨suf, n, r, c, fileInTree_cons _ hin, hres'⟩
  | (m, .file r0 c0) :: rest, rel0, kw, res, hres => by
    rw [walk_and_search] at hres
    rcases List.mem_append.mp hres with h | h
    · refine ⟨[], m, r0, c0, .here (List.mem_cons_self _ _), ?_⟩
      rw [List.append_nil]
      exact h
    · obtain ⟨suf, n, r, c, hin, hres'⟩ := walk_search_provenance rest rel0 kw res h
      exact ⟨suf, n, r, c, fileInTree_cons _ hin, hres'⟩

/-- C7: every result search produces has the title-match flag exactly when
it has no preview; and a result without the flag stems from a readable
file present in the base tree whose relative title is the result's title,
with the preview being the trimmed first line of that file's own content
whose lowercased text contains the lowercased keyword. -/
theorem C7_search_result_invariant (base : Entry) (keyword : String) (res : SearchResult)
    (hres : res ∈ search base keyword) :
    (res.is_title_match = true ↔ res.preview = none) ∧
    (res.is_title_match = false → ∃ es rel n c line,
      base = .dir es ∧ FileInTree es rel n true c ∧
      res.title = mkTitle rel n ∧
      (rustLines c).find? (fun l => strContains (strLower l) (strLower keyword)) = some line ∧
      res.preview = some (trimStr line)) := by
  match base with
  | .file r c =>
    rw [search] at hres
    simp at hres
  | .dir es =>
    rw [search] at hres
    obtain ⟨suf, n, r, c, hin, hres'⟩ := walk_search_provenance es [] (strLower keyword) res hres
    rw [List.nil_append] at hres'
    obtain ⟨hiff, hcontent⟩ := searchFile_spec n r c suf (strLower keyword) res hres'
    refine ⟨hiff, fun hflag => ?_⟩
    obtain ⟨hr, htitle, line, hfind, hprev⟩ := hcontent hflag
    subst hr
    exact ⟨es, suf, n, c, line, rfl, hin, htitle, hfind, hprev⟩

/-- Witness for C7 at a concrete content match: searching "KW" over a base
holding a.md whose second line contains kw. -/
theorem C7_search_result_invariant_witness :
    ((SearchResult.mk "a" false (some "has kw inside")).is_title_match = true ↔
      (SearchResult.mk "a" false (some "has kw inside")).preview = none) ∧
    ((SearchResult.mk "a" false (some "has kw inside")).is_title_match = false →
      ∃ es rel n c line,
        (Entry.dir [("a.md", .file true "nothing\n  has kw inside \nlater")] : Entry) =
          .dir es ∧
        FileInTree es rel n true c ∧
        (SearchResult.mk "a" false (some "has kw inside")).title = mkTitle rel n ∧
        (rustLines c).find? (fun l => strContains (strLower l) (strLower "KW")) = some line ∧
        (SearchResult.mk "a" false (some "has kw inside")).preview = some (trimStr line)) :=
  C7_search_result_invariant (.dir [("a.md", .file true "nothing\n  has kw inside \nlater")])
    "KW" (SearchResult.mk "a" false (some "has kw inside"))
    (by
      have hev : search (.dir [("a.md", .file true "nothing\n  has kw inside \nlater")]) "KW" =
          [⟨"a", false, some "has kw inside"⟩] := by
        simp [search, walk_and_search, searchFile, strLower, mkTitle, stripExt, rustExtension,
          splitOnChar, joinPath, strContains, listHas, listStarts, rustLines, trimStr]
      rw [hev]
      exact List.mem_singleton.mpr rfl)

/-! ## Claim C4: list — machinery for enumeration orders -/

theorem dirPerm_refl : ∀ ds : DirEntries, DirPerm ds ds
  | [] => .nil
  | (n, .file r c) :: rest => .consFile n r c (dirPerm_refl rest)
  | (n, .dir ds0) :: rest => .consDir n (dirPerm_refl ds0) (dirPerm_refl rest)

theorem entRel_refl : ∀ e : Entry, entRel e e
  | .file _ _ => ⟨rfl, rfl⟩
  | .dir ds => dirPerm_refl ds

theorem entRelO_refl (o : Option Entry) : entRelO o o := by
  cases o with
  | none => trivial
  | some e => exact entRel_refl e

theorem entRel_trans {a b c : Entry} (h1 : entRel a b) (h2 : entRel b c) : entRel a c := by
  cases a <;> cases b <;> cases c <;> simp [entRel] at * <;> try exact h1.trans h2
  exact ⟨h1.1.trans h2.1, h1.2.trans h2.2⟩

theorem beqStr_comm (a b : String) : (a == b) = (b == a) := by
  rw [Bool.eq_iff_iff]
  simp only [beq_iff_eq]
  exact eq_comm

theorem lookupE_cons (m : String) (e : Entry) (rest : DirEntries) (n : String) :
    lookupE ((m, e) :: rest) n = if m == n then some e else lookupE rest n := by
  simp only [lookupE, List.find?]
  cases hmn : (m == n)
  · simp [hmn]
  · simp [hmn]

theorem hasName_cons (m : String) (e : Entry) (rest : DirEntries) (n : String) :
    hasName ((m, e) :: rest) n = ((m == n) || hasName rest n) := by
  simp [hasName]

/-- hasName is invariant under enumeration-order changes. -/
theorem DirPerm.hasName_eq {es es' : DirEntries} (h : DirPerm es es') (n : String) :
    hasName es n = hasName es' n := by
  induction h with
  | nil => rfl
  | consFile m r c _ ih => rw [hasName_cons, hasName_cons, ih]
  | consDir m _ _ ih1 ih2 => rw [hasName_cons, hasName_cons, ih2]
  | swap a b => rw [hasName_cons, hasName_cons, hasName_cons, hasName_cons]
                cases a; cases b
                simp [Bool.or_left_comm]
  | trans _ _ ih1 ih2 => rw [ih1, ih2]

/-- Well-formedness is invariant under enumeration-order changes. -/
theorem DirPerm.wfD_eq {es es' : DirEntries} (h : DirPerm es es') : wfD es = wfD es' := by
  induction h with
  | nil => rfl
  | consFile m r c hp ih => rw [wfD, wfD, ih, hp.hasName_eq]
  | consDir m hp1 hp2 ih1 ih2 => rw [wfD, wfD, ih1, ih2, hp2.hasName_eq]
  | swap a b =>
    obtain ⟨n1, e1⟩ := a
    obtain ⟨n2, e2⟩ := b
    cases e1 <;> cases e2 <;>
      simp only [wfD, hasName_cons] <;>
      rw [beqStr_comm n2 n1] <;>
      by_cases h1 : (n1 == n2) = true <;>
        simp [h1, Bool.and_comm, Bool.and_left_comm, Bool.and_assoc]
  | trans _ _ ih1 ih2 => rw [ih1, ih2]

theorem wfD_cons_tail {p : String × Entry} {rest : DirEntries} (h : wfD (p :: rest) = true) :
    wfD rest = true := by
  obtain ⟨n, e⟩ := p
  cases e <;> simp [wfD] at h <;> tauto

theorem wfD_cons_fresh {p : String × Entry} {rest : DirEntries} (h : wfD (p :: rest) = true) :
    hasName rest p.1 = false := by
  obtain ⟨n, e⟩ := p
  cases e <;> simp [wfD] at h <;> tauto

/-- A lookup in a well-formed listing lands on a well-formed subtree. -/
theorem wfE_of_lookup : ∀ {es : DirEntries} {n : String} {e : Entry},
    wfD es = true → lookupE es n = some e → wfE e = true := by
  intro es
  induction es with
  | nil => intro n e _ h2; simp [lookupE] at h2
  | cons p rest ih =>
    intro n e h1 h2
    obtain ⟨m, pe⟩ := p
    rw [lookupE_cons] at h2
    by_cases hm : (m == n) = true
    · rw [if_pos hm] at h2
      obtain rfl : pe = e := Option.some.inj h2
      cases pe with
      | file r c => rfl
      | dir ds => simp [wfD] at h1; simp [wfE]; tauto
    · rw [if_neg hm] at h2
      exact ih (wfD_cons_tail h1) h2

theorem hasName_false_lookup {es : DirEntries} {n : String} (h : hasName es n = false) :
    lookupE es n = none := by
  induction es with
  | nil => rfl
  | cons p rest ih =>
    obtain ⟨m, e⟩ := p
    rw [hasName_cons] at h
    rw [lookupE_cons]
    simp only [Bool.or_eq_false_iff] at h
    rw [if_neg (by simp [h.1]), ih h.2]

/-- Lookups in two enumeration orders of a well-formed listing agree up to
enumeration order of the found subtree. -/
theorem DirPerm.lookup_rel {es es' : DirEntries} (h : DirPerm es es') (hwf : wfD es = true)
    (n : String) : entRelO (lookupE es n) (lookupE es' n) := by
  induction h with
  | nil => trivial
  | consFile m r c hp ih =>
    rw [lookupE_cons, lookupE_cons]
    by_cases hm : (m == n) = true
    · simp only [if_pos hm]
      exact ⟨rfl, rfl⟩
    · simp only [if_neg hm]
      exact ih (wfD_cons_tail hwf)
  | consDir m hp1 hp2 ih1 ih2 =>
    rw [lookupE_cons, lookupE_cons]
    by_cases hm : (m == n) = true
    · simp only [if_pos hm]
      exact hp1
    · simp only [if_neg hm]
      exact ih2 (wfD_cons_tail hwf)
  | swap a b =>
    obtain ⟨n1, e1⟩ := a
    obtain ⟨n2, e2⟩ := b
    have hne : (n1 == n2) = false := by
      have := wfD_cons_fresh hwf
      rw [hasName_cons] at this
      simp only [Bool.or_eq_false_iff] at this
      rw [beqStr_comm]
      exact this.1
    rw [lookupE_cons, lookupE_cons, lookupE_cons, lookupE_cons]
    by_cases h1 : (n1 == n) = true
    · have h2 : (n2 == n) = false := by
        rw [Bool.eq_false_iff]
        intro hc
        rw [beq_iff_eq] at h1 hc
        rw [beq_eq_false_iff_ne] at hne
        exact hne (h1.trans hc.symm)
      rw [if_pos h1, if_neg (by simp [h2]), if_pos h1]
      exact entRelO_refl _
    · rw [if_neg h1]
      by_cases h2 : (n2 == n) = true
      · rw [if_pos h2, if_pos h2]
        exact entRelO_refl _
      · rw [if_neg h2, if_neg h2, if_neg h1]
        exact entRelO_refl _
  | trans hp1 hp2 ih1 ih2 =>
    have hwf2 : wfD _ = true := hp1.wfD_eq ▸ hwf
    have r1 := ih1 hwf
    have r2 := ih2 hwf2
    revert r1 r2
    cases lookupE _ n <;> cases lookupE _ n <;> cases lookupE _ n <;>
      intro r1 r2 <;> (simp [entRelO] at *; try exact entRel_trans r1 r2)

/-- Path resolution in two enumeration orders of the same well-formed tree
agrees up to enumeration order. -/
theorem getPath_rel : ∀ (comps : List String) {a b : Entry},
    entRel a b → wfE a = true → entRelO (getPath a comps) (getPath b comps)
  | [], a, b, hab, _ => by simpa [getPath, entRelO] using hab
  | n :: rest, .file r c, .file r' c', _, _ => by simp [getPath, entRelO]
  | n :: rest, .file _ _, .dir _, hab, _ => absurd hab (by simp [entRel])
  | n :: rest, .dir _, .file _ _, hab, _ => absurd hab (by simp [entRel])
  | n :: rest, .dir ds, .dir ds', hab, hwf => by
    have hrel := DirPerm.lookup_rel hab hwf n
    simp only [getPath]
    revert hrel
    cases hds : lookupE ds n <;> cases hds' : lookupE ds' n <;> intro hrel
    · trivial
    · exact absurd hrel (by simp [entRelO])
    · exact absurd hrel (by simp [entRelO])
    · exact getPath_rel rest hrel (wfE_of_lookup hwf hds)

/-- One step of the lister walk. -/
theorem visit_dirs_cons (rel : List String) (p : String × Entry) (rest : DirEntries) :
    visit_dirs rel (p :: rest) =
      (match p with
        | (n, .dir es) => visit_dirs (rel ++ [n]) es
        | (n, .file _ _) => if rustExtension n == some "md" then [mkTitle rel n] else []) ++
      visit_dirs rel rest := by
  obtain ⟨n, e⟩ := p
  cases e <;> rw [visit_dirs]

/-- The walk outputs of two enumeration orders are permutations of each
other. -/
theorem DirPerm.visit_perm {es es' : DirEntries} (h : DirPerm es es') (rel : List String) :
    (visit_dirs rel es).Perm (visit_dirs rel es') := by
  induction h generalizing rel with
  | nil => exact List.Perm.refl _
  | consFile m r c hp ih =>
    rw [visit_dirs, visit_dirs]
    exact List.Perm.append_left _ (ih rel)
  | consDir m hp1 hp2 ih1 ih2 =>
    rw [visit_dirs, visit_dirs]
    exact List.Perm.append (ih1 (rel ++ [m])) (ih2 rel)
  | swap a b =>
    rw [visit_dirs_cons, visit_dirs_cons, visit_dirs_cons, visit_dirs_cons]
    rw [← List.append_assoc, ← List.append_assoc]
    exact List.Perm.append_right _ List.perm_append_comm
  | trans hp1 hp2 ih1 ih2 =>
    exact (ih1 rel).trans (ih2 rel)

/-- C4: list returns a lexicographically ascending sorted sequence; its
content is exactly (a permutation of) the titles the recursive walk reaches
from base/subfolder; a missing (or non-directory) subfolder yields the
empty result rather than an error; and the output is identical for any two
enumeration orders of a well-formed tree. -/
theorem C4_list_sorted_complete_deterministic :
    (∀ (base : Entry) (sub : Option String),
      List.Pairwise (fun a b => strLe a b = true) (list base sub)) ∧
    (∀ (base : Entry) (sub : Option String) (es : DirEntries),
      getPath base (listComps sub) = some (.dir es) →
      (list base sub).Perm (visit_dirs (listComps sub) es)) ∧
    (∀ (base : Entry) (sub : Option String),
      (∀ es, getPath base (listComps sub) ≠ some (.dir es)) → list base sub = []) ∧
    (∀ (es es' : DirEntries) (sub : Option String), DirPerm es es' → wfD es = true →
      list (.dir es) sub = list (.dir es') sub) := by
  refine ⟨?_, ?_, ?_, ?_⟩
  · intro base sub
    rw [list]
    cases h : getPath base (listComps sub) with
    | none => exact List.Pairwise.nil
    | some e =>
      cases e with
      | file r c => exact List.Pairwise.nil
      | dir es => exact sorted_mergeSort_strLe _
  · intro base sub es h
    rw [list, h]
    exact List.mergeSort_perm _ _
  · intro base sub h
    rw [list]
    cases hg : getPath base (listComps sub) with
    | none => rfl
    | some e =>
      cases e with
      | file r c => rfl
      | dir es => exact absurd hg (h es)
  · intro es es' sub hperm hwf
    have hrel := getPath_rel (listComps sub) (a := .dir es) (b := .dir es') hperm hwf
    rw [list, list]
    revert hrel
    cases h1 : getPath (.dir es) (listComps sub) <;>
      cases h2 : getPath (.dir es') (listComps sub) <;> intro hrel
    · rfl
    · exact absurd hrel (by simp [entRelO])
    · exact absurd hrel (by simp [entRelO])
    · next e1 e2 =>
      cases e1 <;> cases e2
      · rfl
      · exact absurd hrel (by simp [entRelO, entRel])
      · exact absurd hrel (by simp [entRelO, entRel])
      · exact mergeSort_strLe_congr_perm (DirPerm.visit_perm hrel _)

/-- Witness for C4: a two-note base in reversed enumeration order — the
same sorted listing either way, matching the walk's titles. -/
theorem C4_list_sorted_complete_deterministic_witness :
    List.Pairwise (fun a b => strLe a b = true)
      (list (.dir [("b.md", .file true "2"), ("a.md", .file true "1")]) none) ∧
    (list (.dir [("b.md", .file true "2"), ("a.md", .file true "1")]) none).Perm
      (visit_dirs (listComps none) [("b.md", .file true "2"), ("a.md", .file true "1")]) ∧
    list (.dir [("b.md", .file true "2"), ("a.md", .file true "1")]) (some "zzz") = [] ∧
    list (.dir [("b.md", .file true "2"), ("a.md", .file true "1")]) none =
      list (.dir [("a.md", .file true "1"), ("b.md", .file true "2")]) none := by
  obtain ⟨h1, h2, h3, h4⟩ := C4_list_sorted_complete_deterministic
  refine ⟨h1 _ none, h2 _ none _ rfl, h3 _ (some "zzz") ?_, h4 _ _ none (.swap _ _) ?_⟩
  · intro es
    simp [listComps, titleComponents, splitOnChar, getPath, lookupE]
  · simp [wfD, hasName]

/-! ## Path-operation lemmas (used for remove and rename) -/

theorem lookup_update_self : ∀ (es : DirEntries) (n : String) (v : Entry),
    lookupE (updateName es n v) n = some v
  | [], n, v => by simp [updateName, lookupE]
  | (m, e) :: rest, n, v => by
    rw [updateName]
    by_cases h : (m == n) = true
    · rw [if_pos h, lookupE_cons, if_pos (by simp)]
    · rw [if_neg h, lookupE_cons, if_neg h]
      exact lookup_update_self rest n v

theorem lookup_update_other : ∀ (es : DirEntries) (n k : String) (v : Entry),
    (n == k) = false → lookupE (updateName es n v) k = lookupE es k
  | [], n, k, v, h => by
    simp [updateName, lookupE, h]
  | (m, e) :: rest, n, k, v, h => by
    rw [updateName]
    by_cases hm : (m == n) = true
    · rw [if_pos hm, lookupE_cons, lookupE_cons, if_neg (by simp_all), if_neg ?_]
      rw [beq_iff_eq] at hm
      subst hm
      simpa using h
    · rw [if_neg hm, lookupE_cons, lookupE_cons]
      by_cases hk : (m == k) = true
      · rw [if_pos hk, if_pos hk]
      · rw [if_neg hk, if_neg hk]
        exact lookup_update_other rest n k v h

theorem lookup_erase_other : ∀ (es : DirEntries) (n k : String),
    (n == k) = false → lookupE (eraseName es n) k = lookupE es k
  | [], _, _, _ => rfl
  | (m, e) :: rest, n, k, h => by
    rw [eraseName]
    by_cases hm : (m == n) = true
    · rw [if_pos hm, lookupE_cons, if_neg ?_]
      rw [beq_iff_eq] at hm
      subst hm
      simpa using h
    · rw [if_neg hm, lookupE_cons, lookupE_cons]
      by_cases hk : (m == k) = true
      · rw [if_pos hk, if_pos hk]
      · rw [if_neg hk, if_neg hk]
        exact lookup_erase_other rest n k h

theorem hasName_update : ∀ (es : DirEntries) (n k : String) (v : Entry),
    hasName (updateName es n v) k = (hasName es k || (n == k))
  | [], n, k, v => by simp [updateName, hasName]
  | (m, e) :: rest, n, k, v => by
    rw [updateName]
    by_cases hm : (m == n) = true
    · rw [beq_iff_eq] at hm
      subst hm
      rw [if_pos (by simp), hasName_cons, hasName_cons]
      cases hk : (m == k) <;> simp [hk]
    · rw [if_neg hm, hasName_cons, hasName_cons, hasName_update rest n k v]
      cases hk : (m == k) <;> simp [hk]

theorem hasName_erase_le : ∀ (es : DirEntries) (n k : String),
    hasName (eraseName es n) k = true → hasName es k = true
  | [], _, _, h => h
  | (m, e) :: rest, n, k, h => by
    rw [eraseName] at h
    rw [hasName_cons]
    by_cases hm : (m == n) = true
    · rw [if_pos hm] at h
      simp [h]
    · rw [if_neg hm, hasName_cons] at h
      rcases Bool.or_eq_true_iff.mp h with h1 | h1
      · simp [h1]
      · simp [hasName_erase_le rest n k h1]

theorem hasName_erase_self : ∀ (es : DirEntries) (n : String),
    wfD es = true → hasName (eraseName es n) n = false
  | [], _, _ => rfl
  | (m, e) :: rest, n, hwf => by
    rw [eraseName]
    by_cases hm : (m == n) = true
    · rw [if_pos hm]
      have := wfD_cons_fresh hwf
      rw [beq_iff_eq] at hm
      subst hm
      exact this
    · rw [if_neg hm, hasName_cons]
      simp only [Bool.or_eq_false_iff]
      exact ⟨by simpa using hm, hasName_erase_self rest n (wfD_cons_tail hwf)⟩

theorem lookup_erase_self {es : DirEntries} {n : String} (hwf : wfD es = true) :
    lookupE (eraseName es n) n = none :=
  hasName_false_lookup (hasName_erase_self es n hwf)

theorem wfD_erase : ∀ (es : DirEntries) (n : String), wfD es = true →
    wfD (eraseName es n) = true
  | [], _, _ => by simp [eraseName, wfD]
  | (m, e) :: rest, n, hwf => by
    rw [eraseName]
    by_cases hm : (m == n) = true
    · rw [if_pos hm]
      exact wfD_cons_tail hwf
    · rw [if_neg hm]
      have h1 : hasName rest m = false := wfD_cons_fresh hwf
      have h2 : hasName (eraseName rest n) m = false := by
        cases h : hasName (eraseName rest n) m
        · rfl
        · exact absurd (hasName_erase_le rest n m h) (by simp [h1])
      have h3 := wfD_erase rest n (wfD_cons_tail hwf)
      cases e with
      | file r c => simp [wfD, h2, h3]
      | dir ds =>
        have hds : wfD ds = true := by
          simp only [wfD, Bool.and_eq_true] at hwf
          exact hwf.1.2
        simp [wfD, h2, h3, hds]

theorem wfD_update : ∀ (es : DirEntries) (n : String) (v : Entry),
    wfD es = true → wfE v = true → wfD (updateName es n v) = true
  | [], n, v, _, hv => by
    cases v <;> simp_all [updateName, wfD, hasName, wfE]
  | (m, e) :: rest, n, v, hwf, hv => by
    rw [updateName]
    by_cases hm : (m == n) = true
    · rw [if_pos hm]
      have h1 := wfD_cons_fresh hwf
      have h2 := wfD_cons_tail hwf
      rw [beq_iff_eq] at hm
      subst hm
      cases v <;> simp_all [wfD, wfE]
    · rw [if_neg hm]
      have h1 := wfD_cons_fresh hwf
      have h2 := wfD_update rest n v (wfD_cons_tail hwf) hv
      have h3 : hasName (updateName rest n v) m = false := by
        rw [hasName_update]
        simp only [Bool.or_eq_false_iff]
        refine ⟨h1, ?_⟩
        cases hnm : (n == m)
        · rfl
        · rw [beq_iff_eq] at hnm
          subst hnm
          simp at hm
      cases e <;> (simp only [wfD] at hwf ⊢; simp_all)

/-- Resolution of a concatenated path factors through the first part. -/
theorem getPath_append : ∀ (p q : List String) (b : Entry),
    getPath b (p ++ q) =
      match getPath b p with
      | some e => getPath e q
      | none => none
  | [], q, b => by simp [getPath]
  | n :: p', q, .file r c => by simp [getPath]
  | n :: p', q, .dir es => by
    simp only [List.cons_append, getPath]
    cases lookupE es n
    · rfl
    · exact getPath_append p' q _

/-- A path that resolves passes through directories at every proper
prefix. -/
theorem getPath_prefix_dir {b : Entry} {q t : List String} {e : Entry}
    (hne : t ≠ []) (h : getPath b (q ++ t) = some e) :
    ∃ es, getPath b q = some (.dir es) := by
  rw [getPath_append] at h
  cases hq : getPath b q with
  | none => rw [hq] at h; exact absurd h (by simp)
  | some e' =>
    rw [hq] at h
    cases e' with
    | file r c =>
      cases t with
      | nil => exact absurd rfl hne
      | cons y t' => simp [getPath] at h
    | dir es => exact ⟨es, rfl⟩

/-- Any two paths: one extends the other, or they diverge. -/
theorem pathCases : ∀ (p q : List String),
    (∃ t, q = p ++ t) ∨ (∃ t, t ≠ [] ∧ p = q ++ t) ∨
    ((¬ ∃ t, q = p ++ t) ∧ (¬ ∃ t, p = q ++ t))
  | [], q => Or.inl ⟨q, rfl⟩
  | p :: ps, [] => Or.inr (Or.inl ⟨p :: ps, by simp⟩)
  | p :: ps, q :: qs => by
    by_cases hpq : p = q
    · subst hpq
      rcases pathCases ps qs with ⟨t, ht⟩ | ⟨t, htne, ht⟩ | ⟨h1, h2⟩
      · exact Or.inl ⟨t, by rw [ht]; rfl⟩
      · exact Or.inr (Or.inl ⟨t, htne, by rw [ht]; rfl⟩)
      · refine Or.inr (Or.inr ⟨?_, ?_⟩)
        · rintro ⟨t, ht⟩
          exact h1 ⟨t, by injection ht⟩
        · rintro ⟨t, ht⟩
          exact h2 ⟨t, by injection ht⟩
    · refine Or.inr (Or.inr ⟨?_, ?_⟩)
      · rintro ⟨t, ht⟩
        injection ht with h1 _
        exact hpq h1.symm
      · rintro ⟨t, ht⟩
        injection ht with h1 _
        exact hpq h1

theorem wfD_of_wfE_dir {es : DirEntries} (h : wfE (.dir es) = true) : wfD es = true := h

theorem removeAt_dir_shape (es : DirEntries) (p : List String) :
    ∃ es', removeAt (.dir es) p = .dir es' := by
  match p with
  | [] => exact ⟨es, by simp [removeAt]⟩
  | [n] => exact ⟨eraseName es n, by simp [removeAt]⟩
  | n :: a :: u =>
    cases hlk : lookupE es n with
    | some child => exact ⟨updateName es n (removeAt child (a :: u)), by simp [removeAt, hlk]⟩
    | none => exact ⟨es, by simp [removeAt, hlk]⟩

theorem insertAt_dir_shape (es : DirEntries) (p : List String) (v : Entry) :
    ∃ es', insertAt (.dir es) p v = .dir es' := by
  match p with
  | [] => exact ⟨es, by simp [insertAt]⟩
  | [n] => exact ⟨updateName es n v, by simp [insertAt]⟩
  | n :: a :: u =>
    cases hlk : lookupE es n with
    | some child => exact ⟨updateName es n (insertAt child (a :: u) v), by simp [insertAt, hlk]⟩
    | none => exact ⟨es, by simp [insertAt, hlk]⟩

/-- Deleting at a resolving nonempty path makes that path unresolvable. -/
theorem removeAt_eq_self_none : ∀ (p : List String) (b e : Entry),
    wfE b = true → getPath b p = some e → p ≠ [] →
    getPath (removeAt b p) p = none
  | [], _, _, _, _, hne => absurd rfl hne
  | [n], b, e, hwf, hget, _ => by
    cases b with
    | file r c => simp [getPath] at hget
    | dir es =>
      rw [show removeAt (.dir es) [n] = .dir (eraseName es n) from by simp [removeAt],
        getPath_dir_single]
      exact lookup_erase_self (wfD_of_wfE_dir hwf)
  | n :: a :: u, b, e, hwf, hget, _ => by
    cases b with
    | file r c => simp [getPath] at hget
    | dir es =>
      cases hlk : lookupE es n with
      | none => simp [getPath, hlk] at hget
      | some child =>
        have hget' : getPath child (a :: u) = some e := by
          simpa [getPath, hlk] using hget
        rw [show removeAt (.dir es) (n :: a :: u) =
            .dir (updateName es n (removeAt child (a :: u))) from by simp [removeAt, hlk]]
        simp only [getPath, lookup_update_self]
        exact removeAt_eq_self_none (a :: u) child e
          (wfE_of_lookup (wfD_of_wfE_dir hwf) hlk) hget' (by simp)

/-- Deleting at one path leaves resolution of a diverging path unchanged. -/
theorem removeAt_getPath_other : ∀ (p q : List String) (b : Entry),
    (¬ ∃ t, q = p ++ t) → (¬ ∃ t, p = q ++ t) →
    getPath (removeAt b p) q = getPath b q
  | [], q, _, h1, _ => absurd ⟨q, rfl⟩ h1
  | n :: p', [], _, _, h2 => absurd ⟨n :: p', rfl⟩ h2
  | n :: p', m :: q', b, h1, h2 => by
    cases b with
    | file r c => simp [removeAt]
    | dir es =>
      by_cases hnm : n = m
      · subst hnm
        have h1' : ¬ ∃ t, q' = p' ++ t := fun ⟨t, ht⟩ => h1 ⟨t, by rw [ht]; rfl⟩
        have h2' : ¬ ∃ t, p' = q' ++ t := fun ⟨t, ht⟩ => h2 ⟨t, by rw [ht]; rfl⟩
        cases p' with
        | nil => exact absurd ⟨q', rfl⟩ h1
        | cons a u =>
          cases hlk : lookupE es n with
          | none => simp [removeAt, hlk]
          | some child =>
            rw [show removeAt (.dir es) (n :: a :: u) =
                .dir (updateName es n (removeAt child (a :: u))) from by simp [removeAt, hlk]]
            simp only [getPath, lookup_update_self, hlk]
            exact removeAt_getPath_other (a :: u) q' child h1' h2'
      · have hbeq : (n == m) = false := by simp [hnm]
        cases p' with
        | nil =>
          rw [show removeAt (.dir es) [n] = .dir (eraseName es n) from by simp [removeAt]]
          simp only [getPath]
          rw [lookup_erase_other es n m hbeq]
        | cons a u =>
          cases hlk : lookupE es n with
          | none => simp [removeAt, hlk]
          | some child =>
            rw [show removeAt (.dir es) (n :: a :: u) =
                .dir (updateName es n (removeAt child (a :: u))) from by simp [removeAt, hlk]]
            simp only [getPath]
            rw [lookup_update_other es n m _ hbeq]

/-- Deleting below a directory keeps that directory a directory. -/
theorem removeAt_prefix_dir : ∀ (q t : List String) (b : Entry) (es : DirEntries), t ≠ [] →
    getPath b q = some (.dir es) →
    ∃ es', getPath (removeAt b (q ++ t)) q = some (.dir es')
  | [], t, b, es, htne, hget => by
    obtain rfl : b = .dir es := by simpa [getPath] using hget
    obtain ⟨es', hes'⟩ := removeAt_dir_shape es ([] ++ t)
    exact ⟨es', by rw [hes']; simp [getPath]⟩
  | m :: q', t, b, es, htne, hget => by
    cases b with
    | file r c => simp [getPath] at hget
    | dir es0 =>
      cases hlk : lookupE es0 m with
      | none => simp [getPath, hlk] at hget
      | some child =>
        have hget' : getPath child q' = some (.dir es) := by
          simpa [getPath, hlk] using hget
        have hqt : q' ++ t ≠ [] := by
          cases q' <;> simp [htne]
        cases hcons : q' ++ t with
        | nil => exact absurd hcons hqt
        | cons a u =>
          rw [show (m :: q') ++ t = m :: a :: u from by rw [List.cons_append, hcons]]
          rw [show removeAt (.dir es0) (m :: a :: u) =
              .dir (updateName es0 m (removeAt child (a :: u))) from by simp [removeAt, hlk]]
          simp only [getPath, lookup_update_self]
          obtain ⟨es', hes'⟩ := removeAt_prefix_dir q' t child es htne hget'
          rw [hcons] at hes'
          exact ⟨es', hes'⟩

/-- Deletion cannot make an unresolvable path resolvable. -/
theorem removeAt_none_preserved : ∀ (p q : List String) (b : Entry),
    wfE b = true → getPath b q = none → getPath (removeAt b p) q = none
  | [], q, b, _, h => by simpa [removeAt] using h
  | p0 :: ps, q, .file r c, _, h => by simpa [removeAt] using h
  | p0 :: ps, [], .dir es, _, h => by simp [getPath] at h
  | n :: ps, m :: q', .dir es, hwf, h => by
    by_cases hnm : n = m
    · subst hnm
      cases ps with
      | nil =>
        rw [show removeAt (.dir es) [n] = .dir (eraseName es n) from by simp [removeAt]]
        simp only [getPath, lookup_erase_self (wfD_of_wfE_dir hwf)]
      | cons a u =>
        cases hlk : lookupE es n with
        | none => simpa [removeAt, hlk] using h
        | some child =>
          have h' : getPath child q' = none := by
            simpa [getPath, hlk] using h
          rw [show removeAt (.dir es) (n :: a :: u) =
              .dir (updateName es n (removeAt child (a :: u))) from by simp [removeAt, hlk]]
          simp only [getPath, lookup_update_self]
          exact removeAt_none_preserved (a :: u) q' child
            (wfE_of_lookup (wfD_of_wfE_dir hwf) hlk) h'
    · have hbeq : (n == m) = false := by simp [hnm]
      cases ps with
      | nil =>
        rw [show removeAt (.dir es) [n] = .dir (eraseName es n) from by simp [removeAt]]
        simp only [getPath]
        rw [lookup_erase_other es n m hbeq]
        simpa [getPath] using h
      | cons a u =>
        cases hlk : lookupE es n with
        | none => simpa [removeAt, hlk] using h
        | some child =>
          rw [show removeAt (.dir es) (n :: a :: u) =
              .dir (updateName es n (removeAt child (a :: u))) from by simp [removeAt, hlk]]
          simp only [getPath]
          rw [lookup_update_other es n m _ hbeq]
          simpa [getPath] using h

/-- Writing at a nonempty path whose parent is a directory makes the path
resolve to the written entry. -/
theorem insertAt_eq_self : ∀ (p : List String) (b v : Entry), p ≠ [] →
    (∃ es, getPath b p.dropLast = some (.dir es)) →
    getPath (insertAt b p v) p = some v
  | [], _, _, hne, _ => absurd rfl hne
  | [n], b, v, _, hpar => by
    obtain ⟨es0, hes0⟩ := hpar
    obtain rfl : b = .dir es0 := by simpa [getPath] using hes0
    rw [show insertAt (.dir es0) [n] v = .dir (updateName es0 n v) from by simp [insertAt],
      getPath_dir_single]
    exact lookup_update_self es0 n v
  | n :: a :: u, b, v, _, hpar => by
    obtain ⟨es0, hes0⟩ := hpar
    cases b with
    | file r c => simp [List.dropLast, getPath] at hes0
    | dir es =>
      have hdl : (n :: a :: u).dropLast = n :: (a :: u).dropLast := by simp
      rw [hdl] at hes0
      cases hlk : lookupE es n with
      | none => simp [getPath, hlk] at hes0
      | some child =>
        have hes0' : getPath child (a :: u).dropLast = some (.dir es0) := by
          simpa [getPath, hlk] using hes0
        rw [show insertAt (.dir es) (n :: a :: u) v =
            .dir (updateName es n (insertAt child (a :: u) v)) from by simp [insertAt, hlk]]
        simp only [getPath, lookup_update_self]
        exact insertAt_eq_self (a :: u) child v (by simp) ⟨es0, hes0'⟩

/-- Writing at one path leaves resolution of a diverging path unchanged. -/
theorem insertAt_getPath_other : ∀ (p q : List String) (b v : Entry),
    (¬ ∃ t, q = p ++ t) → (¬ ∃ t, p = q ++ t) →
    getPath (insertAt b p v) q = getPath b q
  | [], q, _, _, h1, _ => absurd ⟨q, rfl⟩ h1
  | n :: p', [], _, _, _, h2 => absurd ⟨n :: p', rfl⟩ h2
  | n :: p', m :: q', b, v, h1, h2 => by
    cases b with
    | file r c => simp [insertAt]
    | dir es =>
      by_cases hnm : n = m
      · subst hnm
        have h1' : ¬ ∃ t, q' = p' ++ t := fun ⟨t, ht⟩ => h1 ⟨t, by rw [ht]; rfl⟩
        have h2' : ¬ ∃ t, p' = q' ++ t := fun ⟨t, ht⟩ => h2 ⟨t, by rw [ht]; rfl⟩
        cases p' with
        | nil => exact absurd ⟨q', rfl⟩ h1
        | cons a u =>
          cases hlk : lookupE es n with
          | none => simp [insertAt, hlk]
          | some child =>
            rw [show insertAt (.dir es) (n :: a :: u) v =
                .dir (updateName es n (insertAt child (a :: u) v)) from by simp [insertAt, hlk]]
            simp only [getPath, lookup_update_self, hlk]
            exact insertAt_getPath_other (a :: u) q' child v h1' h2'
      · have hbeq : (n == m) = false := by simp [hnm]
        cases p' with
        | nil =>
          rw [show insertAt (.dir es) [n] v = .dir (updateName es n v) from by simp [insertAt]]
          simp only [getPath]
          rw [lookup_update_other es n m _ hbeq]
        | cons a u =>
          cases hlk : lookupE es n with
          | none => simp [insertAt, hlk]
          | some child =>
            rw [show insertAt (.dir es) (n :: a :: u) v =
                .dir (updateName es n (insertAt child (a :: u) v)) from by simp [insertAt, hlk]]
            simp only [getPath]
            rw [lookup_update_other es n m _ hbeq]

/-- Writing below a directory keeps that directory a directory. -/
theorem insertAt_prefix_dir : ∀ (q t : List String) (b v : Entry) (es : DirEntries), t ≠ [] →
    getPath b q = some (.dir es) →
    ∃ es', getPath (insertAt b (q ++ t) v) q = some (.dir es')
  | [], t, b, v, es, htne, hget => by
    obtain rfl : b = .dir es := by simpa [getPath] using hget
    obtain ⟨es', hes'⟩ := insertAt_dir_shape es ([] ++ t) v
    exact ⟨es', by rw [hes']; simp [getPath]⟩
  | m :: q', t, b, v, es, htne, hget => by
    cases b with
    | file r c => simp [getPath] at hget
    | dir es0 =>
      cases hlk : lookupE es0 m with
      | none => simp [getPath, hlk] at hget
      | some child =>
        have hget' : getPath child q' = some (.dir es) := by
          simpa [getPath, hlk] using hget
        have hqt : q' ++ t ≠ [] := by
          cases q' <;> simp [htne]
        cases hcons : q' ++ t with
        | nil => exact absurd hcons hqt
        | cons a u =>
          rw [show (m :: q') ++ t = m :: a :: u from by rw [List.cons_append, hcons]]
          rw [show insertAt (.dir es0) (m :: a :: u) v =
              .dir (updateName es0 m (insertAt child (a :: u) v)) from by simp [insertAt, hlk]]
          simp only [getPath, lookup_update_self]
          obtain ⟨es', hes'⟩ := insertAt_prefix_dir q' t child v es htne hget'
          rw [hcons] at hes'
          exact ⟨es', hes'⟩

/-- Deletion preserves well-formedness. -/
theorem removeAt_wf : ∀ (p : List String) (b : Entry),
    wfE b = true → wfE (removeAt b p) = true
  | [], b, hwf => by simpa [removeAt] using hwf
  | p0 :: ps, .file r c, hwf => by simpa [removeAt] using hwf
  | [n], .dir es, hwf => by
    rw [show removeAt (.dir es) [n] = .dir (eraseName es n) from by simp [removeAt]]
    exact wfD_erase es n (wfD_of_wfE_dir hwf)
  | n :: a :: u, .dir es, hwf => by
    cases hlk : lookupE es n with
    | none => simpa [removeAt, hlk] using hwf
    | some child =>
      rw [show removeAt (.dir es) (n :: a :: u) =
          .dir (updateName es n (removeAt child (a :: u))) from by simp [removeAt, hlk]]
      exact wfD_update es n _ (wfD_of_wfE_dir hwf)
        (removeAt_wf (a :: u) child (wfE_of_lookup (wfD_of_wfE_dir hwf) hlk))

/-- Writing a well-formed entry preserves well-formedness. -/
theorem insertAt_wf : ∀ (p : List String) (b v : Entry),
    wfE b = true → wfE v = true → wfE (insertAt b p v) = true
  | [], b, v, hwf, _ => by simpa [insertAt] using hwf
  | p0 :: ps, .file r c, v, hwf, _ => by simpa [insertAt] using hwf
  | [n], .dir es, v, hwf, hv => by
    rw [show insertAt (.dir es) [n] v = .dir (updateName es n v) from by simp [insertAt]]
    exact wfD_update es n v (wfD_of_wfE_dir hwf) hv
  | n :: a :: u, .dir es, v, hwf, hv => by
    cases hlk : lookupE es n with
    | none => simpa [insertAt, hlk] using hwf
    | some child =>
      rw [show insertAt (.dir es) (n :: a :: u) v =
          .dir (updateName es n (insertAt child (a :: u) v)) from by simp [insertAt, hlk]]
      exact wfD_update es n _ (wfD_of_wfE_dir hwf)
        (insertAt_wf (a :: u) child v (wfE_of_lookup (wfD_of_wfE_dir hwf) hlk) hv)

/-- Deleting a file at a path deletes exactly that file: every other path
resolves to a file afterwards iff it did before. -/
theorem removeAt_file_iff (p : List String) (b : Entry) (r : Bool) (c : String)
    (hwf : wfE b = true) (hfile : getPath b p = some (.file r c)) (hne : p ≠ []) :
    ∀ q r2 c2, getPath (removeAt b p) q = some (.file r2 c2) ↔
      (q ≠ p ∧ getPath b q = some (.file r2 c2)) := by
  intro q r2 c2
  rcases pathCases p q with ⟨t, hq⟩ | ⟨t, htne, hp⟩ | ⟨h1, h2⟩
  · cases t with
    | nil =>
      rw [List.append_nil] at hq
      subst hq
      rw [removeAt_eq_self_none _ _ _ hwf hfile hne]
      simp
    | cons y t' =>
      subst hq
      rw [getPath_append, removeAt_eq_self_none _ _ _ hwf hfile hne]
      rw [getPath_append, hfile]
      simp [getPath]
  · obtain ⟨es0, hq0⟩ := getPath_prefix_dir htne (hp ▸ hfile)
    obtain ⟨es1, hq1⟩ := removeAt_prefix_dir q t b es0 htne hq0
    rw [← hp] at hq1
    rw [hq1, hq0]
    simp
  · rw [removeAt_getPath_other p q b h1 h2]
    have hqp : q ≠ p := fun h => h1 ⟨[], by rw [h]; simp⟩
    exact ⟨fun h => ⟨hqp, h⟩, fun h => h.2⟩

/-- Deleting an empty directory touches no file: every path resolves to a
file afterwards iff it did before. -/
theorem removeAt_emptyDir_file_iff (D : List String) (b : Entry)
    (hwf : wfE b = true) (hdir : getPath b D = some (.dir [])) (hDne : D ≠ []) :
    ∀ q r2 c2, getPath (removeAt b D) q = some (.file r2 c2) ↔
      getPath b q = some (.file r2 c2) := by
  intro q r2 c2
  rcases pathCases D q with ⟨t, hq⟩ | ⟨t, htne, hp⟩ | ⟨h1, h2⟩
  · cases t with
    | nil =>
      rw [List.append_nil] at hq
      subst hq
      rw [removeAt_eq_self_none _ _ _ hwf hdir hDne, hdir]
      simp
    | cons y t' =>
      subst hq
      rw [getPath_append, removeAt_eq_self_none _ _ _ hwf hdir hDne]
      rw [getPath_append, hdir]
      simp [getPath, lookupE]
  · obtain ⟨es0, hq0⟩ := getPath_prefix_dir htne (hp ▸ hdir)
    obtain ⟨es1, hq1⟩ := removeAt_prefix_dir q t b es0 htne hq0
    rw [← hp] at hq1
    rw [hq1, hq0]
    simp
  · rw [removeAt_getPath_other D q b h1 h2]

/-- The prune loop, walking up from a directory all of whose ancestors
exist as directories, never fails and never deletes the base (a new state
is always returned): it removes empty directories only, so file paths and
unresolvable paths are preserved. -/
theorem pruneRev_ok : ∀ (rl : List String) (b : Entry), wfE b = true →
    (∀ j, j ≤ rl.length → ∃ es, getPath b (rl.reverse.take j) = some (.dir es)) →
    ∃ b', pruneRev b rl = (b', none) ∧ wfE b' = true ∧
      (∀ q r2 c2, getPath b' q = some (.file r2 c2) ↔ getPath b q = some (.file r2 c2)) ∧
      (∀ q, getPath b q = none → getPath b' q = none)
  | [], b, hwf, _ =>
    ⟨b, by simp [pruneRev], hwf, fun _ _ _ => Iff.rfl, fun _ h => h⟩
  | x :: rest, b, hwf, hdirs => by
    obtain ⟨es, hes⟩ := hdirs (x :: rest).length le_rfl
    have hlen : (x :: rest).reverse.take (x :: rest).length = (x :: rest).reverse := by
      rw [← List.length_reverse]
      exact List.take_length _
    rw [hlen] at hes
    cases es with
    | cons e0 es' =>
      refine ⟨b, ?_, hwf, fun _ _ _ => Iff.rfl, fun _ h => h⟩
      have hes2 : getPath b (rest.reverse ++ [x]) = some (.dir (e0 :: es')) := by
        rw [← List.reverse_cons]
        exact hes
      simp [pruneRev, hes2]
    | nil =>
      have hDne : (x :: rest).reverse ≠ [] := by simp
      have hb2wf : wfE (removeAt b (x :: rest).reverse) = true :=
        removeAt_wf (x :: rest).reverse b hwf
      have hdirs' : ∀ j, j ≤ rest.length →
          ∃ es0, getPath (removeAt b (x :: rest).reverse) (rest.reverse.take j) =
            some (.dir es0) := by
        intro j hj
        have hjD : rest.reverse.take j = (x :: rest).reverse.take j := by
          rw [List.reverse_cons, List.take_append_of_le_length (by simpa using hj)]
        obtain ⟨es0, hes0⟩ := hdirs j (Nat.le_succ_of_le hj)
        have hsplit : (x :: rest).reverse.take j ++ (x :: rest).reverse.drop j =
            (x :: rest).reverse := List.take_append_drop j _
        have hdropne : (x :: rest).reverse.drop j ≠ [] := by
          intro hnil
          have hl := congrArg List.length hnil
          rw [List.length_drop] at hl
          simp at hl
          omega
        obtain ⟨es1, hes1⟩ :=
          removeAt_prefix_dir ((x :: rest).reverse.take j) ((x :: rest).reverse.drop j)
            b es0 hdropne hes0
        rw [hsplit] at hes1
        rw [hjD]
        exact ⟨es1, hes1⟩
      obtain ⟨b', hprune, hwf', hiff, hnone⟩ :=
        pruneRev_ok rest (removeAt b (x :: rest).reverse) hb2wf hdirs'
      refine ⟨b', ?_, hwf', ?_, ?_⟩
      · have hes2 : getPath b (rest.reverse ++ [x]) = some (.dir []) := by
          rw [← List.reverse_cons]
          exact hes
        have hprune2 : pruneRev (removeAt b (rest.reverse ++ [x])) rest = (b', none) := by
          rw [← List.reverse_cons]
          exact hprune
        simp [pruneRev, hes2, hprune2]
      · intro q r2 c2
        rw [hiff q r2 c2]
        exact removeAt_emptyDir_file_iff (x :: rest).reverse b hwf hes hDne q r2 c2
      · intro q hq
        exact hnone q (removeAt_none_preserved (x :: rest).reverse q b hwf hq)

/-! ## Claim C3: remove of a note with empty-parent pruning -/

theorem hasName_append (xs ys : DirEntries) (n : String) :
    hasName (xs ++ ys) n = (hasName xs n || hasName ys n) := by
  simp [hasName, List.any_append]

theorem wfD_append_fresh : ∀ {pre : DirEntries} {n : String} {e : Entry} {post : DirEntries},
    wfD (pre ++ (n, e) :: post) = true → hasName pre n = false
  | [], _, _, _, _ => rfl
  | q :: pre', n, e, post, hwf => by
    obtain ⟨qn, qe⟩ := q
    have h1 : hasName (pre' ++ (n, e) :: post) qn = false := wfD_cons_fresh hwf
    rw [hasName_append, hasName_cons] at h1
    simp only [Bool.or_eq_false_iff] at h1
    rw [hasName_cons]
    simp only [Bool.or_eq_false_iff]
    constructor
    · rw [beqStr_comm]
      exact h1.2.1
    · exact wfD_append_fresh (wfD_cons_tail hwf)

theorem lookupE_append_fresh : ∀ {pre : DirEntries} {n : String} {e : Entry} {post : DirEntries},
    hasName pre n = false → lookupE (pre ++ (n, e) :: post) n = some e
  | [], n, e, post, _ => by rw [List.nil_append, lookupE_cons, if_pos (by simp)]
  | (m, me) :: pre', n, e, post, hfresh => by
    rw [hasName_cons] at hfresh
    simp only [Bool.or_eq_false_iff] at hfresh
    rw [List.cons_append, lookupE_cons, if_neg (by simp [hfresh.1])]
    exact lookupE_append_fresh hfresh.2

theorem updateName_append_fresh : ∀ {pre : DirEntries} {n : String} {e : Entry}
    {post : DirEntries} (v : Entry), hasName pre n = false →
    updateName (pre ++ (n, e) :: post) n v = pre ++ (n, v) :: post
  | [], n, e, post, v, _ => by rw [List.nil_append, updateName, if_pos (by simp)]; rfl
  | (m, me) :: pre', n, e, post, v, hfresh => by
    rw [hasName_cons] at hfresh
    simp only [Bool.or_eq_false_iff] at hfresh
    rw [List.cons_append, updateName, if_neg (by simp [hfresh.1]), List.cons_append]
    rw [updateName_append_fresh v hfresh.2]

theorem eraseName_append_fresh : ∀ {pre : DirEntries} {n : String} {e : Entry}
    {post : DirEntries}, hasName pre n = false →
    eraseName (pre ++ (n, e) :: post) n = pre ++ post
  | [], n, e, post, _ => by rw [List.nil_append, eraseName, if_pos (by simp)]; rfl
  | (m, me) :: pre', n, e, post, hfresh => by
    rw [hasName_cons] at hfresh
    simp only [Bool.or_eq_false_iff] at hfresh
    rw [List.cons_append, eraseName, if_neg (by simp [hfresh.1]), List.cons_append]
    rw [eraseName_append_fresh hfresh.2]

theorem getPath_cons_some {es : DirEntries} {n : String} {child : Entry}
    (hlk : lookupE es n = some child) (q : List String) :
    getPath (.dir es) (n :: q) = getPath child q := by
  simp [getPath, hlk]

theorem removeAt_cons_some {es : DirEntries} {n : String} {child : Entry}
    (hlk : lookupE es n = some child) (a : String) (u : List String) :
    removeAt (.dir es) (n :: a :: u) = .dir (updateName es n (removeAt child (a :: u))) := by
  simp [removeAt, hlk]

theorem pruneRev_step_empty {b : Entry} {x : String} {rest : List String}
    (h : getPath b (rest.reverse ++ [x]) = some (.dir [])) :
    pruneRev b (x :: rest) = pruneRev (removeAt b (rest.reverse ++ [x])) rest := by
  simp [pruneRev, h]

theorem pruneRev_step_stop {b : Entry} {x : String} {rest : List String} {e0 : String × Entry}
    {es' : DirEntries} (h : getPath b (rest.reverse ++ [x]) = some (.dir (e0 :: es'))) :
    pruneRev b (x :: rest) = (b, none) := by
  simp [pruneRev, h]

theorem getPath_mkChain : ∀ (ns : List String) (e : Entry), getPath (mkChain ns e) ns = some e
  | [], e => by simp [mkChain, getPath]
  | n :: ns', e => by
    simp [mkChain, getPath, lookupE]
    exact getPath_mkChain ns' e

theorem removeAt_mkChain : ∀ (ns : List String) (e : Entry), ns ≠ [] →
    removeAt (mkChain ns e) ns = mkChain ns.dropLast (.dir [])
  | [], _, hne => absurd rfl hne
  | [m], e, _ => by simp [mkChain, removeAt, eraseName]
  | m :: a :: u, e, _ => by
    rw [show mkChain (m :: a :: u) e = .dir [(m, mkChain (a :: u) e)] from rfl]
    rw [show removeAt (.dir [(m, mkChain (a :: u) e)]) (m :: a :: u) =
        .dir (updateName [(m, mkChain (a :: u) e)] m
          (removeAt (mkChain (a :: u) e) (a :: u))) from by
      simp [removeAt, lookupE]]
    rw [removeAt_mkChain (a :: u) e (by simp)]
    simp [updateName, mkChain]

/-- Pruning up a chain of newly-emptied singleton directories removes the
whole chain and stops at the base. -/
theorem pruneRev_chain : ∀ (ms : List String) (pre post : DirEntries) (n : String),
    hasName pre n = false →
    pruneRev (.dir (pre ++ (n, mkChain ms (.dir [])) :: post)) ((n :: ms).reverse) =
      (.dir (pre ++ post), none) := by
  intro ms
  induction ms using List.reverseRecOn with
  | nil =>
    intro pre post n hfresh
    have h1 : getPath (.dir (pre ++ (n, mkChain [] (.dir [])) :: post)) [n] =
        some (.dir []) := by
      rw [getPath_dir_single, lookupE_append_fresh hfresh]
      rfl
    have h2 : removeAt (.dir (pre ++ (n, mkChain [] (.dir [])) :: post)) [n] =
        .dir (pre ++ post) := by
      rw [show removeAt (.dir (pre ++ (n, mkChain [] (.dir [])) :: post)) [n] =
          .dir (eraseName (pre ++ (n, mkChain [] (.dir [])) :: post) n) from by
        simp [removeAt]]
      rw [eraseName_append_fresh hfresh]
    simp [pruneRev, h1, h2]
  | append_singleton ms' m ih =>
    intro pre post n hfresh
    have hlk : lookupE (pre ++ (n, mkChain (ms' ++ [m]) (.dir [])) :: post) n =
        some (mkChain (ms' ++ [m]) (.dir [])) := lookupE_append_fresh hfresh
    have hpath : (n :: ms').reverse.reverse ++ [m] = n :: (ms' ++ [m]) := by simp
    have h1 : getPath (.dir (pre ++ (n, mkChain (ms' ++ [m]) (.dir [])) :: post))
        ((n :: ms').reverse.reverse ++ [m]) = some (.dir []) := by
      rw [hpath, getPath_cons_some hlk]
      exact getPath_mkChain (ms' ++ [m]) (.dir [])
    have h2 : removeAt (.dir (pre ++ (n, mkChain (ms' ++ [m]) (.dir [])) :: post))
        ((n :: ms').reverse.reverse ++ [m]) =
        .dir (pre ++ (n, mkChain ms' (.dir [])) :: post) := by
      rw [hpath]
      cases hcons : ms' ++ [m] with
      | nil => exact absurd hcons (by simp)
      | cons a u =>
        rw [hcons] at hlk
        rw [removeAt_cons_some hlk]
        rw [show removeAt (mkChain (a :: u) (.dir [])) (a :: u) = mkChain ms' (.dir []) from by
          rw [← hcons, removeAt_mkChain (ms' ++ [m]) (.dir []) (by simp), List.dropLast_concat]]
        rw [updateName_append_fresh _ hfresh]
    have hrl : (n :: (ms' ++ [m])).reverse = m :: (n :: ms').reverse := by simp
    rw [hrl, pruneRev_step_empty h1, h2]
    exact ih pre post n hfresh

/-- C3: when base/title.md exists as a file, remove deletes it and prunes
newly-empty parent directories, never the base itself.  Part 1 (any
well-formed state): remove succeeds, the base directory survives, the note
is gone, and a path resolves to a file afterwards exactly when it did
before and is not the deleted note (the prune walk removes only empty
directories).  Part 2: deleting the only note of a chain of nested
subfolders removes the whole chain up to, but not including, the base.
Part 3: the walk stops at the first non-empty directory — an ancestor
holding a sibling entry survives with that sibling intact. -/
theorem C3_remove_note_prunes_empty_parents :
    (∀ (base : Entry) (title : String) (p : List String) (r : Bool) (c : String),
      titleComponents (title ++ ".md") = p → p ≠ [] →
      wfE base = true → getPath base p = some (.file r c) →
      ∃ b', remove base title = (some b', none) ∧
        getPath b' p = none ∧
        (∀ q r2 c2, getPath b' q = some (.file r2 c2) ↔
          (q ≠ p ∧ getPath base q = some (.file r2 c2)))) ∧
    (∀ (pre post : DirEntries) (title n : String) (ns : List String) (r : Bool) (c : String),
      titleComponents (title ++ ".md") = n :: ns →
      wfD (pre ++ (n, mkChain ns (.file r c)) :: post) = true →
      remove (.dir (pre ++ (n, mkChain ns (.file r c)) :: post)) title =
        (some (.dir (pre ++ post)), none)) ∧
    (∀ (n m f s : String) (sib : Entry) (r : Bool) (c : String) (title : String),
      titleComponents (title ++ ".md") = [n, m, f] → s ≠ m →
      remove (.dir [(n, .dir [(s, sib), (m, .dir [(f, .file r c)])])]) title =
        (some (.dir [(n, .dir [(s, sib)])]), none)) := by
  refine ⟨?_, ?_, ?_⟩
  · intro base title p r c hp hpne hwf hfile
    have hwf0 : wfE (removeAt base p) = true := removeAt_wf p base hwf
    have hdirs : ∀ j, j ≤ p.dropLast.reverse.length →
        ∃ es, getPath (removeAt base p) (p.dropLast.reverse.reverse.take j) =
          some (.dir es) := by
      intro j hj
      rw [List.length_reverse, List.length_dropLast] at hj
      rw [List.reverse_reverse]
      have hdl : p.dropLast.take j = p.take j := by
        rw [List.dropLast_eq_take, List.take_take]
        congr 1
        omega
      rw [hdl]
      have hsplit : p.take j ++ p.drop j = p := List.take_append_drop j p
      have hdropne : p.drop j ≠ [] := by
        intro hnil
        have hlen := congrArg List.length hnil
        rw [List.length_drop] at hlen
        simp only [List.length_nil] at hlen
        have hppos : 0 < p.length := List.length_pos.mpr hpne
        omega
      obtain ⟨es0, hes0⟩ := getPath_prefix_dir hdropne
        (show getPath base (p.take j ++ p.drop j) = some (.file r c) by rw [hsplit]; exact hfile)
      obtain ⟨es1, hes1⟩ := removeAt_prefix_dir (p.take j) (p.drop j) base es0 hdropne hes0
      rw [hsplit] at hes1
      exact ⟨es1, hes1⟩
    obtain ⟨b', hprune, hwf', hiff, hnone⟩ :=
      pruneRev_ok p.dropLast.reverse (removeAt base p) hwf0 hdirs
    refine ⟨b', ?_, ?_, ?_⟩
    · simp [remove, hp, hfile, isFileO, hprune]
    · exact hnone p (removeAt_eq_self_none p base _ hwf hfile hpne)
    · intro q r2 c2
      rw [hiff q r2 c2]
      exact removeAt_file_iff p base r c hwf hfile hpne q r2 c2
  · intro pre post title n ns r c hp hwf
    have hfresh : hasName pre n = false := wfD_append_fresh hwf
    have hlk : lookupE (pre ++ (n, mkChain ns (.file r c)) :: post) n =
        some (mkChain ns (.file r c)) := lookupE_append_fresh hfresh
    have hfile : getPath (.dir (pre ++ (n, mkChain ns (.file r c)) :: post)) (n :: ns) =
        some (.file r c) := by
      rw [getPath_cons_some hlk]
      exact getPath_mkChain ns (.file r c)
    cases ns with
    | nil =>
      have hrm : removeAt (.dir (pre ++ (n, mkChain [] (.file r c)) :: post)) [n] =
          .dir (pre ++ post) := by
        rw [show removeAt (.dir (pre ++ (n, mkChain [] (.file r c)) :: post)) [n] =
            .dir (eraseName (pre ++ (n, mkChain [] (.file r c)) :: post) n) from by
          simp [removeAt]]
        rw [eraseName_append_fresh hfresh]
      simp [remove, hp, hfile, isFileO, hrm, pruneRev]
    | cons a u =>
      have hrm : removeAt (.dir (pre ++ (n, mkChain (a :: u) (.file r c)) :: post))
          (n :: a :: u) =
          .dir (pre ++ (n, mkChain (a :: u).dropLast (.dir [])) :: post) := by
        rw [removeAt_cons_some hlk, removeAt_mkChain (a :: u) _ (by simp),
          updateName_append_fresh _ hfresh]
      have hch := pruneRev_chain (a :: u).dropLast pre post n hfresh
      have hdl : (n :: a :: u).dropLast = n :: (a :: u).dropLast := rfl
      simp only [remove, hp, hfile, isFileO, hrm, hdl]
      rw [hch]
      simp
  · intro n m f s sib r c title hp hsm
    have hsmb : (s == m) = false := by simp [hsm]
    have hfile : getPath (.dir [(n, .dir [(s, sib), (m, .dir [(f, .file r c)])])]) [n, m, f] =
        some (.file r c) := by
      simp [getPath, lookupE, List.find?, hsmb]
    have hrm : removeAt (.dir [(n, .dir [(s, sib), (m, .dir [(f, .file r c)])])]) [n, m, f] =
        .dir [(n, .dir [(s, sib), (m, .dir [])])] := by
      simp [removeAt, lookupE, List.find?, hsmb, updateName, eraseName]
    have hrm2 : removeAt (.dir [(n, .dir [(s, sib), (m, .dir [])])]) [n, m] =
        .dir [(n, .dir [(s, sib)])] := by
      simp [removeAt, lookupE, List.find?, hsmb, updateName, eraseName]
    have hp1 : getPath (.dir [(n, .dir [(s, sib), (m, .dir [])])]) [n, m] =
        some (.dir []) := by
      simp [getPath, lookupE, List.find?, hsmb]
    have hp2 : getPath (.dir [(n, .dir [(s, sib)])]) [n] = some (.dir [(s, sib)]) := by
      simp [getPath, lookupE]
    simp only [remove, hp, hfile, isFileO, hrm]
    rw [show ([n, m, f].dropLast).reverse = [m, n] from rfl]
    rw [pruneRev_step_empty (by simpa using hp1)]
    rw [show removeAt (.dir [(n, .dir [(s, sib), (m, .dir [])])]) ([n].reverse ++ [m]) =
        .dir [(n, .dir [(s, sib)])] from by simpa using hrm2]
    rw [pruneRev_step_stop (show getPath (.dir [(n, .dir [(s, sib)])]) ([].reverse ++ [n]) =
      some (.dir ((s, sib) :: [])) from by simpa using hp2)]
    simp

/-- Witness for C3 (part 2 of the theorem at a concrete state): removing
the only note of subfolder k deletes k itself and keeps the sibling note,
and the base directory survives. -/
theorem C3_remove_note_prunes_empty_parents_witness :
    remove (.dir [("k", mkChain ["only.md"] (.file true "x")), ("keep.md", .file true "y")])
        "k/only" =
      (some (.dir [("keep.md", .file true "y")]), none) :=
  C3_remove_note_prunes_empty_parents.2.1 [] [("keep.md", .file true "y")] "k/only" "k"
    ["only.md"] true "x" (by decide) (by simp [wfD, hasName, mkChain])

/-! ## Claim C5: rename creates missing destination parents -/

theorem isPrefixL_iff : ∀ (p q : List String), isPrefixL p q = true ↔ ∃ t, q = p ++ t
  | [], q => by simp [isPrefixL]
  | a :: as, [] => by
    simp only [isPrefixL]
    constructor
    · intro h
      exact absurd h (by simp)
    · rintro ⟨t, ht⟩
      exact absurd ht (by simp)
  | a :: as, b :: bs => by
    simp only [isPrefixL, Bool.and_eq_true, beq_iff_eq]
    rw [isPrefixL_iff as bs]
    constructor
    · rintro ⟨rfl, t, rfl⟩
      exact ⟨t, rfl⟩
    · rintro ⟨t, ht⟩
      injection ht with h1 h2
      exact ⟨h1.symm, t, h2⟩

theorem dropLast_append_ne : ∀ (l1 l2 : List String), l2 ≠ [] →
    (l1 ++ l2).dropLast = l1 ++ l2.dropLast
  | [], l2, _ => by simp
  | a :: l1', l2, h => by
    rw [List.cons_append]
    rw [show ((a :: (l1' ++ l2)).dropLast) = a :: (l1' ++ l2).dropLast from by
      cases hc : l1' ++ l2 with
      | nil => exact absurd (List.append_eq_nil.mp hc).2 h
      | cons x xs => rfl]
    rw [dropLast_append_ne l1' l2 h, List.cons_append]

/-- fs::create_dir_all on a path whose existing prefix consists of
directories: succeeds, preserves well-formedness and every file, makes the
full path a directory, and creates it empty when it did not exist. -/
theorem create_dir_all_ok : ∀ (comps : List String) (b : Entry), wfE b = true →
    (∀ j, j ≤ comps.length → getPath b (comps.take j) = none ∨
      ∃ es, getPath b (comps.take j) = some (.dir es)) →
    ∃ b', create_dir_all b comps = (b', none) ∧ wfE b' = true ∧
      (∃ es, getPath b' comps = some (.dir es)) ∧
      (∀ q r2 c2, getPath b q = some (.file r2 c2) → getPath b' q = some (.file r2 c2)) ∧
      (getPath b comps = none → getPath b' comps = some (.dir [])) := by
  intro comps
  induction comps with
  | nil =>
    intro b hwf hpre
    rcases hpre 0 (by simp) with h | ⟨es, hes⟩
    · simp [getPath] at h
    · obtain rfl : b = .dir es := by simpa [getPath] using hes
      refine ⟨.dir es, by simp [create_dir_all], hwf, ⟨es, by simp [getPath]⟩,
        fun q r2 c2 h => h, fun h => ?_⟩
      simp [getPath] at h
  | cons n rest ih =>
    intro b hwf hpre
    rcases hpre 0 (by simp) with h | ⟨es, hes⟩
    · simp [getPath] at h
    · obtain rfl : b = .dir es := by simpa [getPath] using hes
      cases hlk : lookupE es n with
      | some child =>
        have hchwf : wfE child = true := wfE_of_lookup (wfD_of_wfE_dir hwf) hlk
        have hchpre : ∀ j, j ≤ rest.length → getPath child (rest.take j) = none ∨
            ∃ es0, getPath child (rest.take j) = some (.dir es0) := by
          intro j hj
          have := hpre (j + 1) (by simpa using hj)
          rw [List.take_succ_cons, getPath_cons_some hlk] at this
          exact this
        obtain ⟨child', hc, hcwf, ⟨es2, hces⟩, hcpres, hcempty⟩ := ih child hchwf hchpre
        refine ⟨.dir (updateName es n child'), ?_, ?_, ?_, ?_, ?_⟩
        · rw [show create_dir_all (.dir es) (n :: rest) =
              (.dir (updateName es n (create_dir_all child rest).1),
                (create_dir_all child rest).2) from by simp [create_dir_all, hlk]]
          rw [hc]
        · exact wfD_update es n child' (wfD_of_wfE_dir hwf) hcwf
        · refine ⟨es2, ?_⟩
          rw [getPath_cons_some (lookup_update_self es n child')]
          exact hces
        · intro q r2 c2 hq
          cases q with
          | nil => simp [getPath] at hq
          | cons k q' =>
            by_cases hk : (n == k) = true
            · rw [beq_iff_eq] at hk
              subst hk
              rw [getPath_cons_some hlk] at hq
              rw [getPath_cons_some (lookup_update_self es n child')]
              exact hcpres q' r2 c2 hq
            · rw [show getPath (.dir (updateName es n child')) (k :: q') =
                  getPath (.dir es) (k :: q') from by
                cases hlk2 : lookupE es k with
                | some e2 =>
                  rw [getPath_cons_some hlk2,
                    getPath_cons_some (by rw [lookup_update_other es n k _ (by simpa using hk)]; exact hlk2)]
                | none =>
                  simp [getPath, hlk2, lookup_update_other es n k _ (by simpa using hk)]]
              exact hq
        · intro hnone
          rw [getPath_cons_some hlk] at hnone
          rw [getPath_cons_some (lookup_update_self es n child')]
          exact hcempty hnone
      | none =>
        have hchpre : ∀ j, j ≤ rest.length → getPath (.dir []) (rest.take j) = none ∨
            ∃ es0, getPath (.dir []) (rest.take j) = some (.dir es0) := by
          intro j hj
          cases hjt : rest.take j with
          | nil => exact Or.inr ⟨[], by simp [getPath]⟩
          | cons k ks => exact Or.inl (by simp [getPath, lookupE, List.find?])
        obtain ⟨child', hc, hcwf, ⟨es2, hces⟩, hcpres, hcempty⟩ :=
          ih (.dir []) (by simp [wfE, wfD]) hchpre
        refine ⟨.dir (updateName es n child'), ?_, ?_, ?_, ?_, ?_⟩
        · rw [show create_dir_all (.dir es) (n :: rest) =
              (.dir (updateName es n (create_dir_all (.dir []) rest).1),
                (create_dir_all (.dir []) rest).2) from by simp [create_dir_all, hlk]]
          rw [hc]
        · exact wfD_update es n child' (wfD_of_wfE_dir hwf) hcwf
        · refine ⟨es2, ?_⟩
          rw [getPath_cons_some (lookup_update_self es n child')]
          exact hces
        · intro q r2 c2 hq
          cases q with
          | nil => simp [getPath] at hq
          | cons k q' =>
            by_cases hk : (n == k) = true
            · rw [beq_iff_eq] at hk
              subst hk
              rw [show getPath (.dir es) (n :: q') = none from by simp [getPath, hlk]] at hq
              exact absurd hq (by simp)
            · rw [show getPath (.dir (updateName es n child')) (k :: q') =
                  getPath (.dir es) (k :: q') from by
                cases hlk2 : lookupE es k with
                | some e2 =>
                  rw [getPath_cons_some hlk2,
                    getPath_cons_some (by rw [lookup_update_other es n k _ (by simpa using hk)]; exact hlk2)]
                | none =>
                  simp [getPath, hlk2, lookup_update_other es n k _ (by simpa using hk)]]
              exact hq
        · intro hnone
          rw [getPath_cons_some (lookup_update_self es n child')]
          cases rest with
          | nil =>
            have : child' = .dir [] := by
              have h0 := hc
              simp [create_dir_all] at h0
              exact h0.symm
            rw [this]
            simp [getPath]
          | cons a u =>
            refine hcempty ?_
            simp [getPath, lookupE, List.find?]

/-- C5: when the destination's parent directory does not exist (and the
chain above it is unobstructed), rename creates the parent and all needed
ancestors and performs the move: it succeeds, the note is at the
destination path, no longer at the source path, and the parent directory
exists.  Instantiated at src "x", dst "y/x" this is exactly: moving note x
to y/x with folder y missing succeeds and creates y. -/
theorem C5_rename_creates_missing_parents :
    ∀ (base : Entry) (src dst : String) (pFrom pTo parent : List String) (r : Bool) (c : String),
      resolveComps src = pFrom → resolveComps dst = pTo → pTo.dropLast = parent →
      wfE base = true →
      getPath base pFrom = some (.file r c) →
      getPath base parent = none →
      (∀ j, j ≤ parent.length → getPath base (parent.take j) = none ∨
        ∃ es, getPath base (parent.take j) = some (.dir es)) →
      ∃ b', rename base src dst = (b', none) ∧
        getPath b' pTo = some (.file r c) ∧
        getPath b' pFrom = none ∧
        (∃ es, getPath b' parent = some (.dir es)) := by
  intro base src dst pFrom pTo parent r c hsrc hdst hpar hwf h1 h2 h3
  have hparne : parent ≠ [] := by
    intro h
    rw [h] at h2
    simp [getPath] at h2
  have hpTone : pTo ≠ [] := by
    intro h
    rw [h] at hpar
    exact hparne hpar.symm
  obtain ⟨es0, hbase⟩ : ∃ es0, base = .dir es0 := by
    rcases h3 0 (by simp) with h | ⟨es, hes⟩
    · simp [getPath] at h
    · simp [getPath] at hes
      exact ⟨es, hes⟩
  have hpFromne : pFrom ≠ [] := by
    intro h
    rw [h, hbase] at h1
    simp [getPath] at h1
  obtain ⟨last, hsplit⟩ : ∃ last, pTo = parent ++ [last] := by
    refine ⟨pTo.getLast hpTone, ?_⟩
    rw [← hpar]
    exact (List.dropLast_concat_getLast hpTone).symm
  have hnotpre : ¬ ∃ t, parent = pFrom ++ t := by
    rintro ⟨t, ht⟩
    have hlen : pFrom.length ≤ parent.length := by rw [ht]; simp
    have htake : parent.take pFrom.length = pFrom := by rw [ht]; exact List.take_left _ _
    rcases h3 pFrom.length hlen with h | ⟨es, hes⟩
    · rw [htake, h1] at h
      exact absurd h (by simp)
    · rw [htake, h1] at hes
      exact absurd hes (by simp)
  have hnotpre2 : ¬ ∃ t, pFrom = parent ++ t := by
    rintro ⟨t, ht⟩
    rw [ht, getPath_append, h2] at h1
    exact absurd h1 (by simp)
  have hne_refl : pFrom ≠ pTo := by
    intro h
    exact hnotpre2 ⟨[last], by rw [h]; exact hsplit⟩
  have hguard : isPrefixL pFrom pTo = false := by
    cases hg : isPrefixL pFrom pTo
    · rfl
    · obtain ⟨t, ht⟩ := (isPrefixL_iff pFrom pTo).mp hg
      cases t with
      | nil =>
        rw [List.append_nil] at ht
        exact absurd ht.symm hne_refl
      | cons y ys =>
        refine absurd (⟨(y :: ys).dropLast, ?_⟩ : ∃ t, parent = pFrom ++ t) hnotpre
        rw [← hpar, ht, dropLast_append_ne pFrom (y :: ys) (by simp)]
  have hnotpre3 : ¬ ∃ t, pFrom = pTo ++ t := by
    rintro ⟨t, ht⟩
    refine hnotpre2 ⟨last :: t, ?_⟩
    rw [ht, hsplit, List.append_assoc]
    rfl
  have hnotpre4 : ¬ ∃ t, pTo = pFrom ++ t := by
    rintro ⟨t, ht⟩
    have hg := (isPrefixL_iff pFrom pTo).mpr ⟨t, ht⟩
    rw [hg] at hguard
    exact absurd hguard (by simp)
  obtain ⟨b1, hcreate, hb1wf, ⟨es1, hb1par⟩, hb1pres, hb1empty⟩ :=
    create_dir_all_ok parent base hwf h3
  have hb1parempty : getPath b1 parent = some (.dir []) := hb1empty h2
  have hb1from : getPath b1 pFrom = some (.file r c) := hb1pres pFrom r c h1
  have hb1to : getPath b1 pTo = none := by
    rw [hsplit, getPath_append, hb1parempty]
    simp [getPath, lookupE, List.find?]
  have hb2from : getPath (removeAt b1 pFrom) pFrom = none :=
    removeAt_eq_self_none pFrom b1 _ hb1wf hb1from hpFromne
  have hb2par : getPath (removeAt b1 pFrom) parent = some (.dir []) := by
    rw [removeAt_getPath_other pFrom parent b1 hnotpre hnotpre2]
    exact hb1parempty
  have hbto : getPath (insertAt (removeAt b1 pFrom) pTo (.file r c)) pTo =
      some (.file r c) := by
    apply insertAt_eq_self pTo _ _ hpTone
    rw [hpar]
    exact ⟨[], hb2par⟩
  have hbfrom : getPath (insertAt (removeAt b1 pFrom) pTo (.file r c)) pFrom = none := by
    rw [insertAt_getPath_other pTo pFrom _ _ hnotpre3 hnotpre4]
    exact hb2from
  have hbpar : ∃ es, getPath (insertAt (removeAt b1 pFrom) pTo (.file r c)) parent =
      some (.dir es) := by
    have h5 := insertAt_prefix_dir parent [last] (removeAt b1 pFrom) (.file r c) []
      (by simp) hb2par
    rw [← hsplit] at h5
    exact h5
  have hfs : fsRename b1 pFrom pTo = (insertAt (removeAt b1 pFrom) pTo (.file r c), none) := by
    simp only [fsRename]
    rw [if_neg hne_refl, if_neg (by simp [hguard]), hb1from, hpar, hb1parempty]
    simp [hpTone, hb1to]
  refine ⟨insertAt (removeAt b1 pFrom) pTo (.file r c), ?_, hbto, hbfrom, hbpar⟩
  simp only [rename, hsrc, hdst, hpar]
  rw [h2]
  simp only [Option.isSome_none, Bool.false_eq_true, if_false]
  rw [hcreate]
  exact hfs

/-- Witness for C5: moving note x to y/x on a base holding only x.md, with
folder y missing: y is created and the note ends up at y/x.md. -/
theorem C5_rename_creates_missing_parents_witness :
    ∃ b', rename (.dir [("x.md", .file true "hi")]) "x" "y/x" = (b', none) ∧
      getPath b' ["y", "x.md"] = some (.file true "hi") ∧
      getPath b' ["x.md"] = none ∧
      (∃ es, getPath b' ["y"] = some (.dir es)) :=
  C5_rename_creates_missing_parents (.dir [("x.md", .file true "hi")]) "x" "y/x"
    ["x.md"] ["y", "x.md"] ["y"] true "hi"
    (by decide) (by decide) rfl (by simp [wfE, wfD, hasName])
    rfl rfl
    (fun j hj => by
      match j with
      | 0 => exact Or.inr ⟨[("x.md", .file true "hi")], rfl⟩
      | 1 => exact Or.inl rfl
      | (k + 2) =>
        simp only [List.length_cons, List.length_nil] at hj
        omega)

/-! ## Claim C10: rename is not atomic -/

/-- C10: there is a state (the empty base) in which rename "x" "y/x" first
creates the missing destination parent y, then fails with NotFound because
the source note is missing — and the created directory y remains: an error
return with a changed filesystem. -/
theorem C10_rename_error_leaves_created_dirs :
    rename (.dir []) "x" "y/x" = (.dir [("y", .dir [])], some ⟨.notFound, ""⟩) ∧
    Entry.dir [("y", .dir [])] ≠ .dir [] ∧
    getPath (.dir [("y", .dir [])]) ["y"] = some (.dir []) := by
  refine ⟨?_, by simp, by simp [getPath, lookupE]⟩
  simp [rename, resolveComps, titleComponents, splitOnChar, getPath, lookupE,
    create_dir_all, updateName, fsRename, isPrefixL]

end Fsk
